import Mathlib

/-!
# matterircd: session synchronisation and event translation

A shallow embedding of `mm-go-irckit/mmuser.go` and `bridge/bridge.go`.

* Records of `bridge/bridge.go` become Lean structures.
* The `Bridger` backend and the `viper` configuration are read-only
  environments (records of functions).
* The IRC server (`u.Srv`), whose `Server` and `Channel` implementations live
  outside the two embedded files, is modelled as explicit state: a user
  registry keyed by nickname, a channel table keyed by channel ID, and the
  log of frontend actions emitted so far.
* A Go nil-pointer dereference is a `none` result.
* Logging is dropped; the throttle ticker and the worker pool are not
  modelled: one worker is a function over the channels it receives.
-/

namespace Matterircd

/-! ## Data model (`bridge/bridge.go`) -/

/-- Backend user record, `bridge.UserInfo`.  `TeamID` is read by
`mmuser.go` (`u.br.GetMe().TeamID`) and is therefore part of the record. -/
structure UserInfo where
  Nick : String
  User : String
  Real : String
  Pass : List String
  Host : String
  Roles : String
  DisplayName : String
  Ghost : Bool
  Me : Bool
  Username : String
  TeamID : String
deriving DecidableEq

/-- Backend channel record, `bridge.ChannelInfo`. -/
structure ChannelInfo where
  Name : String
  ID : String
  TeamID : String
deriving DecidableEq

/-- File attachment, `bridge.File`. -/
structure File where
  Name : String
deriving DecidableEq

/-- Event payload `bridge.ChannelAddEvent`; `Adder` is a pointer that may be nil. -/
structure ChannelAddEvent where
  Adder : Option UserInfo
  Added : List UserInfo
  ChannelID : String

/-- Event payload `bridge.ChannelRemoveEvent`; `Remover` is a pointer that may be nil. -/
structure ChannelRemoveEvent where
  Remover : Option UserInfo
  Removed : List UserInfo
  ChannelID : String

/-- Event payload `bridge.ChannelMessageEvent`. -/
structure ChannelMessageEvent where
  Text : String
  ChannelID : String
  Sender : UserInfo
  MessageType : String
  ChannelType : String
  Files : List File

/-- Event payload `bridge.DirectMessageEvent`. -/
structure DirectMessageEvent where
  Text : String
  Receiver : String
  Sender : UserInfo
  Files : List File

/-- One post of a `model.PostList` (the fields `mmuser.go` reads). -/
structure Post where
  Type_ : String
  CreateAt : Int
  DeleteAt : Int
  Message : String
  UserId : String
deriving DecidableEq

/-- The `model.PostList` of the Mattermost client library: `Order` lists post
ids newest first, `Posts` maps an id to its post (a missing key reads as nil). -/
structure PostList where
  Order : List String
  Posts : String → Option Post

/-- The constant `model.POST_JOIN_LEAVE` of the Mattermost client library. -/
def POST_JOIN_LEAVE : String := "system_join_leave"

/-! ## Environments: backend and configuration -/

/-- The backend connector, `bridge.Bridger`, restricted to the queries
`mmuser.go` issues, plus the backfill extensions it calls
(`GetLastViewedAt`, `GetPostsSince`, `GetTeamName`). -/
structure Bridger where
  Protocol : String
  GetChannelName : String → String
  GetChannelUsers : String → Except String (List UserInfo)
  GetUsers : List UserInfo
  GetUser : String → Option UserInfo
  GetMe : UserInfo
  GetChannels : List ChannelInfo
  Topic : String → String
  GetTeamName : String → String
  GetLastViewedAt : String → Int
  GetPostsSince : String → Int → Option PostList

/-- The settings provider (`*viper.Viper`), read-only. -/
structure Viper where
  GetStringSlice : String → List String
  GetBool : String → Bool

/-- Library functions of the Go runtime and of `muesli/reflow` that the
embedded code calls with fixed arguments: `wordwrap.String(·, 440)`,
`strings.TrimSpace`, and `time.Unix(0, ns).Format` for the two layouts
`2006-01-02` and `15:04` as functions of the nanosecond timestamp. -/
structure GoLib where
  wordwrap440 : String → String
  TrimSpace : String → String
  formatDate : Int → String
  formatClock : Int → String

/-! ## Server state -/

/-- Frontend actions (spec section 6), in the order they are emitted. -/
inductive Out where
  | join (ch nick : String)
  | batchJoin (ch : String) (nicks : List String)
  | part (ch nick : String)
  | topic (ch : String) (src : Option String) (text : String)
  | spoofMessage (ch sender text : String)
  | spoofNotice (ch sender text : String)
  | privmsg (name user host rcv trailing : String)
deriving DecidableEq

/-- Backend calls with an effect or a cost, in the order they are issued. -/
inductive BrCall where
  | GetChannelUsers (id : String)
  | GetLastViewedAt (id : String)
  | GetPostsSince (id : String) (since : Int)
  | UpdateLastViewed (id : String)
  | UpdateChannels
deriving DecidableEq

/-- Modelled from the spec: the synthetic channel of `mm-go-irckit` (its
`Channel` implementation is not among the embedded files): an ID, a topic and
a membership set, members being named by nickname. -/
structure Chan where
  ID : String
  topic : String
  members : List String
deriving DecidableEq

/-- The session: the local principal `u`, the server registry `u.Srv` (users
under the nickname they were registered with, channels by ID) and the two
logs.  A registered user is identified by its registry key, which is also how
channel membership names it. -/
structure Session where
  u : UserInfo
  users : List (String × UserInfo)
  chans : List Chan
  out : List Out
  calls : List BrCall

/-- Read-only context of one session. `chanName` is the display name
(`Channel.String()`) the server gives the channel with a given ID. -/
structure Ctx where
  br : Bridger
  v : Viper
  lib : GoLib
  chanName : String → String

/-- Modelled from the spec: `stringInSlice` (defined outside the embedded
files) is an exact string match against the entries of the list. -/
def stringInSlice (a : String) (list : List String) : Bool :=
  list.any (fun b => b == a)

/-- Modelled from the spec: `Server.HasUser`, the registry lookup keyed by nickname. -/
def HasUser (s : Session) (nick : String) : Option UserInfo :=
  (s.users.find? (fun g => g.1 == nick)).map (fun g => g.2)

/-- Modelled from the spec: `Server.Add`, which registers a user under its
nickname unless that nickname is already taken. -/
def Add (s : Session) (g : UserInfo) : Session :=
  match HasUser s g.Nick with
  | some _ => s
  | none => { s with users := s.users ++ [(g.Nick, g)] }

/-- Modelled from the spec: `Server.Channel`, the channel with the given ID,
created empty on first use. -/
def Channel (s : Session) (id : String) : Chan :=
  (s.chans.find? (fun c => c.ID == id)).getD { ID := id, topic := "", members := [] }

/-- Store a channel back into the channel table. -/
def putChan (s : Session) (c : Chan) : Session :=
  { s with chans := c :: s.chans.filter (fun d => !(d.ID == c.ID)) }

/-- Modelled from the spec: `Channel.HasUser`. -/
def Chan.HasUser (s : Session) (id nick : String) : Bool :=
  (Channel s id).members.any (fun m => m == nick)

/-- Modelled from the spec: `Channel.Join`; joining a member twice is a no-op. -/
def Chan.Join (s : Session) (id nick : String) : Session :=
  if Chan.HasUser s id nick then s
  else
    let c := Channel s id
    { putChan s { c with members := c.members ++ [nick] } with
      out := s.out ++ [Out.join id nick] }

/-- Modelled from the spec: `Channel.BatchJoin`, one batch action adding every
user not yet a member. -/
def Chan.BatchJoin (s : Session) (id : String) (nicks : List String) : Session :=
  let c := Channel s id
  let fresh := (nicks.filter (fun n => !(c.members.any (fun m => m == n)))).eraseDups
  { putChan s { c with members := c.members ++ fresh } with
    out := s.out ++ [Out.batchJoin id nicks] }

/-- Modelled from the spec: `Channel.Part`, removing a member. -/
def Chan.Part (s : Session) (id nick : String) : Session :=
  let c := Channel s id
  { putChan s { c with members := c.members.filter (fun m => !(m == nick)) } with
    out := s.out ++ [Out.part id nick] }

/-- Modelled from the spec: `Channel.Topic`, a topic change attributed to a
session entity, which may be absent. -/
def Chan.Topic (s : Session) (id : String) (src : Option UserInfo) (text : String) : Session :=
  let c := Channel s id
  { putChan s { c with topic := text } with
    out := s.out ++ [Out.topic id (src.map (fun g => g.Nick)) text] }

/-- Modelled from the spec: `Channel.SpoofMessage`, deliver-message-to-channel as a named sender. -/
def Chan.SpoofMessage (s : Session) (id sender text : String) : Session :=
  { s with out := s.out ++ [Out.spoofMessage id sender text] }

/-- Modelled from the spec: `Channel.SpoofNotice`, deliver-notice-to-channel. -/
def Chan.SpoofNotice (s : Session) (id sender text : String) : Session :=
  { s with out := s.out ++ [Out.spoofNotice id sender text] }

/-! ## `mmuser.go` -/

/-- `createUserFromInfo`: the registered user for `info.Nick`, created from
`info` when the nickname is unknown. -/
def createUserFromInfo (s : Session) (info : UserInfo) : Session × UserInfo :=
  match HasUser s info.Nick with
  | some ghost => (s, ghost)
  | none => (Add s info, info)

/-- `addUsersToChannel`: batch-join the users, named by registry key. -/
def addUsersToChannel (s : Session) (users : List String) (channelID : String) : Session :=
  Chan.BatchJoin s channelID users

/-- First loop of `syncChannel`: materialise every member that is not the
principal; `batchUsers` collects the registry keys of the users to join. -/
def syncGhosts : Session → List UserInfo → List String → Session × List String
  | s, [], batchUsers => (s, batchUsers)
  | s, ghost :: rest, batchUsers =>
    if ghost.Me then syncGhosts s rest batchUsers
    else
      let r := createUserFromInfo s ghost
      syncGhosts r.1 rest (batchUsers ++ [ghost.Nick])

/-- Second loop of `syncChannel`: join the principal for a `Me` entry. -/
def syncMe (cx : Ctx) (id : String) : Session → List UserInfo → Session
  | s, [] => s
  | s, ghost :: rest =>
    if !ghost.Me then syncMe cx id s rest
    else if Chan.HasUser s id s.u.Nick then s
    else if stringInSlice (cx.chanName id) (cx.v.GetStringSlice (cx.br.Protocol ++ ".joinexclude")) then
      syncMe cx id s rest
    else
      let s1 := Chan.Join s id s.u.Nick
      let svc := HasUser s1 cx.br.Protocol
      syncMe cx id (Chan.Topic s1 id svc (cx.br.Topic id)) rest

/-- `syncChannel`: mirror the backend membership of channel `id`. -/
def syncChannel (cx : Ctx) (s : Session) (id : String) (_name : String) : Session :=
  let s0 := { s with calls := s.calls ++ [BrCall.GetChannelUsers id] }
  match cx.br.GetChannelUsers id with
  | Except.error _ => s0
  | Except.ok users =>
    let r := syncGhosts s0 users []
    let s1 := addUsersToChannel r.1 r.2 id
    syncMe cx id s1 users

/-- The group branch of `getMessageChannel` (`channelType == "G"`): make sure
the backend's own user is on the channel, resyncing the channel if it was not. -/
def joinGroup (cx : Ctx) (s : Session) (channelID channelType : String) : Session :=
  if channelType == "G" then
    let r := createUserFromInfo s cx.br.GetMe
    if !Chan.HasUser r.1 channelID cx.br.GetMe.Nick then
      syncChannel cx (Chan.Join r.1 channelID cx.br.GetMe.Nick) channelID
        (cx.br.GetChannelName channelID)
    else r.1
  else s

/-- `getMessageChannel`: the effective destination channel (by ID) of a message. -/
def getMessageChannel (cx : Ctx) (s : Session) (channelID channelType : String)
    (sender : UserInfo) : Session × String :=
  let ch := channelID
  let s1 := joinGroup cx s channelID channelType
  let r2 := createUserFromInfo s1 sender
  let s2 := if !Chan.HasUser r2.1 ch sender.Nick then Chan.Join r2.1 ch sender.Nick else r2.1
  let ch1 :=
    if stringInSlice (cx.chanName ch) (cx.v.GetStringSlice (cx.br.Protocol ++ ".joinexclude"))
    then "&messages" else ch
  let ch2 :=
    if decide ((cx.v.GetStringSlice (cx.br.Protocol ++ ".joininclude")).length > 0)
        && !stringInSlice (cx.chanName ch1) (cx.v.GetStringSlice (cx.br.Protocol ++ ".joininclude"))
    then "&messages" else ch1
  (s2, ch2)

/-! ### String helpers of the Go standard library -/

/-- Pieces of a character list between occurrences of the separator `sep`. -/
def splitChars (sep : Char) : List Char → List Char → List (List Char)
  | [], acc => [acc.reverse]
  | c :: cs, acc =>
    if c = sep then acc.reverse :: splitChars sep cs [] else splitChars sep cs (c :: acc)

/-- The call `strings.Split(s, "\n")`. -/
def splitLines (s : String) : List String :=
  (splitChars (Char.ofNat 10) s.data []).map String.mk

/-- Whether `sub` occurs in the character list. -/
def containsChars (sub : List Char) : List Char → Bool
  | [] => sub.isEmpty
  | c :: cs => sub.isPrefixOf (c :: cs) || containsChars sub cs

/-- The characters before the first occurrence of `sub` (all of them when `sub` is absent). -/
def beforeFirst (sub : List Char) : List Char → List Char
  | [] => []
  | c :: cs => if sub.isPrefixOf (c :: cs) then [] else c :: beforeFirst sub cs

/-- The call `strings.Contains(s, "__")`. -/
def containsDunder (s : String) : Bool := containsChars "__".data s.data

/-- The expression `strings.Split(s, "__")[0]`. -/
def splitDunderHead (s : String) : String := String.mk (beforeFirst "__".data s.data)

/-- Conversion of a mathematical integer to Go `int64` (two's complement wrap-around). -/
def toInt64 (x : Int) : Int := (x + 2 ^ 63) % 2 ^ 64 - 2 ^ 63

/-! ### Event handlers -/

/-- Loop body of `MsgSpoofUser`. -/
def msgSpoofLine (cx : Ctx) (sender : UserInfo) (rcvuser : String) (s : Session) (l : String) :
    Session :=
  let l := cx.lib.TrimSpace l
  if l.length == 0 then s
  else { s with out := s.out ++
    [Out.privmsg sender.Nick sender.Nick sender.Host rcvuser (l ++ "\n")] }

/-- `MsgSpoofUser`: a private message to `rcvuser`, line by line, as `sender`. -/
def MsgSpoofUser (cx : Ctx) (s : Session) (sender : UserInfo) (rcvuser msg : String) : Session :=
  (splitLines (cx.lib.wordwrap440 msg)).foldl (msgSpoofLine cx sender rcvuser) s

/-- `handleDirectMessageEvent`. -/
def handleDirectMessageEvent (cx : Ctx) (s : Session) (event : DirectMessageEvent) : Session :=
  if event.Sender.Me then MsgSpoofUser cx s s.u event.Receiver event.Text
  else
    let r := createUserFromInfo s event.Sender
    MsgSpoofUser cx r.1 r.2 event.Receiver event.Text

/-- The assignment `event.Sender.Nick = u.Nick`, seen from the registry: the
user that `createUserFromInfo` registers holds the event's `Sender` pointer, so
when the user was registered by this very event the rewrite also changes the
nickname stored in it (the registry key stays). -/
def renameFresh (s : Session) (key nick : String) : Session :=
  { s with users := s.users.map (fun g => if g.1 == key then (g.1, { g.2 with Nick := nick }) else g) }

/-- `handleChannelMessageEvent`. -/
def handleChannelMessageEvent (cx : Ctx) (s : Session) (event : ChannelMessageEvent) : Session :=
  let fresh := (HasUser (joinGroup cx s event.ChannelID event.ChannelType) event.Sender.Nick).isNone
  let r := getMessageChannel cx s event.ChannelID event.ChannelType event.Sender
  let s1 := if event.Sender.Me && fresh then renameFresh r.1 event.Sender.Nick r.1.u.Nick else r.1
  let nick := if event.Sender.Me then s1.u.Nick else event.Sender.Nick
  if event.MessageType == "notice" then Chan.SpoofNotice s1 r.2 nick event.Text
  else Chan.SpoofMessage s1 r.2 nick event.Text

/-- The loop of `handleChannelAddEvent` over `event.Added`.  Reading
`event.Adder.Nick` with a nil `Adder` is a nil-pointer dereference (`none`). -/
def channelAddLoop (cx : Ctx) (event : ChannelAddEvent) : Session → List UserInfo → Option Session
  | s, [] => some s
  | s, added :: rest =>
    if added.Me then
      channelAddLoop cx event
        (syncChannel cx s event.ChannelID (cx.br.GetChannelName event.ChannelID)) rest
    else
      let r := createUserFromInfo s added
      let s1 := Chan.Join r.1 event.ChannelID added.Nick
      match event.Adder with
      | none => none
      | some adder =>
        channelAddLoop cx event
          (Chan.SpoofMessage s1 event.ChannelID "system"
            ("added " ++ added.Nick ++ " to the channel by " ++ adder.Nick)) rest

/-- `handleChannelAddEvent`. -/
def handleChannelAddEvent (cx : Ctx) (s : Session) (event : ChannelAddEvent) : Option Session :=
  channelAddLoop cx event s event.Added

/-- The loop of `handleChannelRemoveEvent` over `event.Removed`. -/
def channelRemoveLoop (event : ChannelRemoveEvent) : Session → List UserInfo → Session
  | s, [] => s
  | s, removed :: rest =>
    if removed.Me then
      channelRemoveLoop event (Chan.Part s event.ChannelID s.u.Nick) rest
    else
      let r := createUserFromInfo s removed
      let s1 := Chan.Part r.1 event.ChannelID removed.Nick
      match event.Remover with
      | some remover =>
        channelRemoveLoop event
          (Chan.SpoofMessage s1 event.ChannelID "system"
            ("removed " ++ removed.Nick ++ " from the channel by " ++ remover.Nick)) rest
      | none =>
        channelRemoveLoop event
          (Chan.SpoofMessage s1 event.ChannelID "system"
            ("removed " ++ removed.Nick ++ " from the channel")) rest

/-- `handleChannelRemoveEvent`. -/
def handleChannelRemoveEvent (s : Session) (event : ChannelRemoveEvent) : Session :=
  channelRemoveLoop event s event.Removed

/-! ### Backfill -/

/-- The function value that `createSpoof` returns: `MsgSpoofUser` from the
principal for a direct-message pseudo-channel, or `SpoofMessage` of a channel. -/
inductive Spoof where
  | direct
  | channel (id : String)
deriving DecidableEq

/-- Calling the function returned by `createSpoof`. -/
def Spoof.call (cx : Ctx) (sp : Spoof) (s : Session) (nick msg : String) : Session :=
  match sp with
  | Spoof.direct => MsgSpoofUser cx s s.u nick msg
  | Spoof.channel id => Chan.SpoofMessage s id nick msg

/-- `createSpoof`.  `createUserFromInfo` applied to a nil `GetUser` result is a
nil-pointer dereference (`none`). -/
def createSpoof (cx : Ctx) (s : Session) (mmchannel : ChannelInfo) : Option (Session × Spoof) :=
  if containsDunder mmchannel.Name then
    let userID := splitDunderHead mmchannel.Name
    match cx.br.GetUser userID with
    | none => none
    | some info => some ((createUserFromInfo s info).1, Spoof.direct)
  else
    let channelName :=
      if mmchannel.TeamID != cx.br.GetMe.TeamID || cx.v.GetBool (cx.br.Protocol ++ ".prefixmainteam")
      then cx.br.GetTeamName mmchannel.TeamID ++ "/" ++ mmchannel.Name
      else mmchannel.Name
    some (syncChannel cx s mmchannel.ID channelName, Spoof.channel mmchannel.ID)

/-- One call of the spoof function during replay: a day marker or a post line. -/
inductive Replayed where
  | marker (date : String)
  | line (nick clock text : String)
deriving DecidableEq

/-- The arguments `(nick, msg)` a replay entry passes to the spoof function. -/
def Replayed.args : Replayed → String × String
  | Replayed.marker date => ("matterircd", "Replaying since " ++ date)
  | Replayed.line nick clock text => (nick, "[" ++ clock ++ "] " ++ text)

/-- The inner loop of the replay, over the lines of one post. -/
def replayLines (cx : Ctx) (p : Post) (ts : Int) :
    List String → String → Option (List Replayed × String)
  | [], prevDate => some ([], prevDate)
  | post :: rest, prevDate =>
    let user := cx.br.GetUser p.UserId
    let date := cx.lib.formatDate ts
    let mark := if date != prevDate then [Replayed.marker date] else []
    let prevDate1 := if date != prevDate then date else prevDate
    match user with
    | none => none
    | some info =>
      match replayLines cx p ts rest prevDate1 with
      | none => none
      | some (out, prevDate2) =>
        some (mark ++ Replayed.line info.Nick (cx.lib.formatClock ts) post :: out, prevDate2)

/-- The body of the replay loop for one post. -/
def replayPost (cx : Ctx) (p : Post) (prevDate : String) : Option (List Replayed × String) :=
  if p.Type_ == POST_JOIN_LEAVE then some ([], prevDate)
  else if p.DeleteAt > p.CreateAt then some ([], prevDate)
  else
    let ts := toInt64 (p.CreateAt * 1000000)
    replayLines cx p ts (splitLines p.Message) prevDate

/-- The replay loop, over the post ids in the order they are visited
(`Order` from its last index down to 0).  A missing id is a nil post. -/
def replayPosts (cx : Ctx) (posts : String → Option Post) :
    List String → String → Option (List Replayed)
  | [], _ => some []
  | id :: rest, prevDate =>
    match posts id with
    | none => none
    | some p =>
      match replayPost cx p prevDate with
      | none => none
      | some (out, prevDate1) =>
        match replayPosts cx posts rest prevDate1 with
        | none => none
        | some more => some (out ++ more)

/-- Append a backend call to the call log. -/
def logCall (s : Session) (c : BrCall) : Session := { s with calls := s.calls ++ [c] }

/-- The body of the loop of `addUserToChannelWorker` for one channel of the queue. -/
def workerChannel (cx : Ctx) (s : Session) (brchannel : ChannelInfo) : Option Session :=
  match createSpoof cx s brchannel with
  | none => none
  | some (s1, spoof) =>
    let s2 := logCall s1 (BrCall.GetLastViewedAt brchannel.ID)
    let since := cx.br.GetLastViewedAt brchannel.ID
    if since == 0 then some s2
    else
      let s3 := logCall s2 (BrCall.GetPostsSince brchannel.ID since)
      match cx.br.GetPostsSince brchannel.ID since with
      | none => some s3
      | some mmPostList =>
        match replayPosts cx mmPostList.Posts mmPostList.Order.reverse "" with
        | none => none
        | some out =>
          let s4 := out.foldl (fun st r => spoof.call cx st r.args.1 r.args.2) s3
          if !cx.v.GetBool (cx.br.Protocol ++ ".disableautoview") then
            some (logCall s4 (BrCall.UpdateLastViewed brchannel.ID))
          else some s4

/-- `addUserToChannelWorker` run by one worker over the channels it receives. -/
def addUserToChannelWorker (cx : Ctx) : Session → List ChannelInfo → Option Session
  | s, [] => some s
  | s, brchannel :: rest =>
    match workerChannel cx s brchannel with
    | none => none
    | some s1 => addUserToChannelWorker cx s1 rest

/-! ## Example environment -/

/-- A user record with the given nickname and `Me` flag. -/
def mkUser (nick : String) (me : Bool) : UserInfo :=
  { Nick := nick, User := nick, Real := nick, Pass := [], Host := "host", Roles := "",
    DisplayName := nick, Ghost := !me, Me := me, Username := nick, TeamID := "team" }

/-- A backend with the protocol name `mattermost`, principal `me`, and no data. -/
def exBridger : Bridger :=
  { Protocol := "mattermost", GetChannelName := fun id => id,
    GetChannelUsers := fun _ => Except.ok [], GetUsers := [], GetUser := fun _ => none,
    GetMe := mkUser "me" true, GetChannels := [], Topic := fun _ => "",
    GetTeamName := fun t => t, GetLastViewedAt := fun _ => 0, GetPostsSince := fun _ _ => none }

/-- Library stand-ins: no wrapping, no trimming, and a two-day calendar that
agrees with UTC on the first two days of the Unix epoch. -/
def exLib : GoLib :=
  { wordwrap440 := fun m => m, TrimSpace := fun l => l,
    formatDate := fun ns => if ns < 86400000000000 then "1970-01-01" else "1970-01-02",
    formatClock := fun _ => "00:00" }

/-- A configuration holding the two lists for protocol `mattermost`. -/
def exViper (joinexclude joininclude : List String) : Viper :=
  { GetStringSlice := fun k =>
      if k == "mattermost.joinexclude" then joinexclude
      else if k == "mattermost.joininclude" then joininclude else [],
    GetBool := fun _ => false }

/-- A context over `exBridger` in which a reserved channel (`&...`) is named by
its ID and any other channel by `#` followed by its backend name. -/
def exCtx (joinexclude joininclude : List String) : Ctx :=
  { br := exBridger, v := exViper joinexclude joininclude, lib := exLib,
    chanName := fun id => if "&".data.isPrefixOf id.data then id else "#" ++ id }

/-- A session of principal `nick` with an empty registry. -/
def exSession (nick : String) : Session :=
  { u := mkUser nick true, users := [], chans := [], out := [], calls := [] }

/-- The context `exCtx` over a backend whose every channel has the given members. -/
def exCtxMembers (joinexclude joininclude : List String) (members : List UserInfo) : Ctx :=
  { exCtx joinexclude joininclude with
    br := { exBridger with GetChannelUsers := fun _ => Except.ok members } }

/-- A post list of four posts, newest first: `p3` on the second day, the
join/leave post `p4`, the deleted post `p2`, and the two-line post `p1`. -/
def exPosts : PostList :=
  { Order := ["p3", "p4", "p2", "p1"],
    Posts := fun id =>
      if id == "p1" then
        some { Type_ := "", CreateAt := 1000, DeleteAt := 0, Message := "hello\nworld",
               UserId := "alice" }
      else if id == "p2" then
        some { Type_ := "", CreateAt := 2000, DeleteAt := 3000, Message := "gone",
               UserId := "alice" }
      else if id == "p4" then
        some { Type_ := "system_join_leave", CreateAt := 4000, DeleteAt := 0,
               Message := "bob joined", UserId := "bob" }
      else if id == "p3" then
        some { Type_ := "", CreateAt := 86405000, DeleteAt := 0, Message := "next day",
               UserId := "bob" }
      else none }

/-- A post list of three posts in non-decreasing `CreateAt` order, newest
first; for `o3` the product `CreateAt * 1000000` exceeds the `int64` range. -/
def exPostsFar : PostList :=
  { Order := ["o3", "o2", "o1"],
    Posts := fun id =>
      if id == "o1" then
        some { Type_ := "", CreateAt := 0, DeleteAt := 0, Message := "first", UserId := "alice" }
      else if id == "o2" then
        some { Type_ := "", CreateAt := 86400000, DeleteAt := 0, Message := "second",
               UserId := "alice" }
      else if id == "o3" then
        some { Type_ := "", CreateAt := 18446744073710, DeleteAt := 0, Message := "third",
               UserId := "alice" }
      else none }

/-- The context `exCtx` over a backend that knows every user id (the user
being named after the id) and returns `exPosts` as the posts since the
last-viewed time 1 of any channel. -/
def exCtxReplay : Ctx :=
  { exCtx [] [] with
    br := { exBridger with GetUser := fun id => some (mkUser id false),
                           GetLastViewedAt := fun _ => 1,
                           GetPostsSince := fun _ _ => some exPosts } }

/-! ## Notions used in the statements

### Output log -/

/-- The sender identity of an emitted message or notice. -/
def Out.sender : Out → Option String
  | Out.spoofMessage _ n _ => some n
  | Out.spoofNotice _ n _ => some n
  | Out.privmsg n _ _ _ _ => some n
  | _ => none

/-- From `s` to `t` the output log grows by entries that all satisfy `P`. -/
def Emits (P : Out → Prop) (s t : Session) : Prop :=
  ∃ ext, t.out = s.out ++ ext ∧ ∀ o ∈ ext, P o

/-- An entry that is neither a message nor a notice. -/
def Silent (o : Out) : Prop := o.sender = none

/-! ### Registry -/

/-- A sequence of `createUserFromInfo` calls on one registry, with the ghost
each call returns. -/
def createMany : Session → List UserInfo → Session × List UserInfo
  | s, [] => (s, [])
  | s, info :: rest =>
    let r := createUserFromInfo s info
    let q := createMany r.1 rest
    (q.1, r.2 :: q.2)

/-- The nicknames under which users are registered. -/
def registeredNicks (s : Session) : List String := s.users.map (fun g => g.1)

/-! ### Growth of registry and membership -/

/-- From `s` to `t` no registered user and no channel member is lost. -/
def Grows (s t : Session) : Prop :=
  (∀ nick g, HasUser s nick = some g → HasUser t nick = some g) ∧
  (∀ id nick, nick ∈ (Channel s id).members → nick ∈ (Channel t id).members)

/-! ### Replayed posts -/

/-- The creation instant of a post as the replay computes it:
`p.CreateAt*int64(time.Millisecond)` nanoseconds, in `int64` arithmetic. -/
def Post.nanos (p : Post) : Int := toInt64 (p.CreateAt * 1000000)

/-- A post that the replay loop does not skip: not a join/leave system post,
and `DeleteAt` not greater than `CreateAt`. -/
def Post.kept (p : Post) : Prop := p.Type_ ≠ POST_JOIN_LEAVE ∧ ¬ p.DeleteAt > p.CreateAt

instance (p : Post) : Decidable p.kept := by unfold Post.kept; infer_instance

/-- Whether a replay entry is a post line (as opposed to a day marker). -/
def Replayed.isLine : Replayed → Bool
  | Replayed.line _ _ _ => true
  | Replayed.marker _ => false

/-- The post lines of one post: one per line of its message, under the
author's nickname and the clock time of the post. -/
def postLines (cx : Ctx) (p : Post) : List Replayed :=
  match cx.br.GetUser p.UserId with
  | some info =>
    (splitLines p.Message).map (fun t => Replayed.line info.Nick (cx.lib.formatClock p.nanos) t)
  | none => []

/-- What the replay emits for one visited post: its post lines are exactly the
lines of the post when the post is kept and none otherwise, and it emits
something exactly when the post is kept. -/
def SegmentOf (cx : Ctx) (posts : String → Option Post) (id : String) (seg : List Replayed) :
    Prop :=
  ∃ p, posts id = some p ∧
    seg.filter Replayed.isLine = (if p.kept then postLines cx p else []) ∧
    (seg ≠ [] ↔ p.kept)

/-! ### Day markers -/

/-- The calendar date of a post as the replay formats it. -/
def Post.date (cx : Ctx) (p : Post) : String := cx.lib.formatDate p.nanos

/-- The posts the replay visits, in the order it visits them. -/
def visitedPosts (pl : PostList) : List Post := pl.Order.reverse.filterMap pl.Posts

/-- The visited posts that are not skipped. -/
def replayedPosts (pl : PostList) : List Post := (visitedPosts pl).filter (fun p => decide p.kept)

/-- The replay with the marker test of the code (`date != prevDate`), over the kept posts. -/
def prevDateReplay (cx : Ctx) : String → List Post → List Replayed
  | _, [] => []
  | prev, p :: rest =>
    (if p.date cx = prev then [] else [Replayed.marker (p.date cx)]) ++ postLines cx p ++
      prevDateReplay cx (p.date cx) rest

/-- The replay as the specification words it: the lines of every replayed
post, each preceded by a day marker exactly when no earlier replayed post has
the same calendar date (`seen` holds the dates of the earlier posts). -/
def markedReplay (cx : Ctx) : List String → List Post → List Replayed
  | _, [] => []
  | seen, p :: rest =>
    (if p.date cx ∈ seen then [] else [Replayed.marker (p.date cx)]) ++ postLines cx p ++
      markedReplay cx (p.date cx :: seen) rest

/-- The date of a day marker. -/
def Replayed.markerDate : Replayed → Option String
  | Replayed.marker d => some d
  | Replayed.line _ _ _ => none

/-! # Theorems -/

/-! ## Frame lemmas: the principal is never rewritten -/

@[simp] theorem Add_u (s : Session) (g : UserInfo) : (Add s g).u = s.u := by
  unfold Add; split <;> rfl

@[simp] theorem createUserFromInfo_u (s : Session) (info : UserInfo) :
    (createUserFromInfo s info).1.u = s.u := by
  unfold createUserFromInfo; split
  · rfl
  · exact Add_u s info

@[simp] theorem chanJoin_u (s : Session) (id nick : String) : (Chan.Join s id nick).u = s.u := by
  unfold Chan.Join; split <;> rfl

@[simp] theorem chanBatchJoin_u (s : Session) (id : String) (nicks : List String) :
    (Chan.BatchJoin s id nicks).u = s.u := rfl

@[simp] theorem chanTopic_u (s : Session) (id : String) (src : Option UserInfo) (t : String) :
    (Chan.Topic s id src t).u = s.u := rfl

theorem syncGhosts_u (users : List UserInfo) :
    ∀ (s : Session) (acc : List String), (syncGhosts s users acc).1.u = s.u := by
  induction users with
  | nil => intro s acc; rfl
  | cons g rest ih =>
    intro s acc
    simp only [syncGhosts]
    split
    · exact ih s acc
    · rw [ih]; exact createUserFromInfo_u s g

theorem syncMe_u (cx : Ctx) (id : String) (users : List UserInfo) :
    ∀ s : Session, (syncMe cx id s users).u = s.u := by
  induction users with
  | nil => intro s; rfl
  | cons g rest ih =>
    intro s
    simp only [syncMe]
    split
    · exact ih s
    · split
      · rfl
      · split
        · exact ih s
        · rw [ih]; simp

@[simp] theorem syncChannel_u (cx : Ctx) (s : Session) (id name : String) :
    (syncChannel cx s id name).u = s.u := by
  unfold syncChannel
  split
  · rfl
  · simp only [addUsersToChannel]
    rw [syncMe_u, chanBatchJoin_u, syncGhosts_u]

@[simp] theorem joinGroup_u (cx : Ctx) (s : Session) (id ty : String) :
    (joinGroup cx s id ty).u = s.u := by
  unfold joinGroup
  split
  · dsimp only
    split <;> simp
  · rfl

@[simp] theorem getMessageChannel_u (cx : Ctx) (s : Session) (id ty : String)
    (sender : UserInfo) : (getMessageChannel cx s id ty sender).1.u = s.u := by
  simp only [getMessageChannel]
  split <;> simp

/-! ## What an operation adds to the output log -/

theorem Emits.idle (P : Out → Prop) (s : Session) : Emits P s s :=
  ⟨[], by simp, by simp⟩

theorem Emits.of_out_eq {P : Out → Prop} {s t : Session} (h : t.out = s.out) : Emits P s t :=
  ⟨[], by simp [h], by simp⟩

theorem Emits.seq {P : Out → Prop} {s t r : Session} (h1 : Emits P s t) (h2 : Emits P t r) :
    Emits P s r := by
  obtain ⟨e1, he1, hp1⟩ := h1
  obtain ⟨e2, he2, hp2⟩ := h2
  refine ⟨e1 ++ e2, by rw [he2, he1, List.append_assoc], ?_⟩
  intro o ho
  rcases List.mem_append.1 ho with h | h
  · exact hp1 o h
  · exact hp2 o h

theorem Emits.single {P : Out → Prop} {s t : Session} (o : Out) (h : t.out = s.out ++ [o])
    (hp : P o) : Emits P s t :=
  ⟨[o], h, by simpa using hp⟩

@[simp] theorem Add_out (s : Session) (g : UserInfo) : (Add s g).out = s.out := by
  unfold Add; split <;> rfl

@[simp] theorem createUserFromInfo_out (s : Session) (info : UserInfo) :
    (createUserFromInfo s info).1.out = s.out := by
  unfold createUserFromInfo; split
  · rfl
  · exact Add_out s info

theorem chanJoin_silent (s : Session) (id nick : String) : Emits Silent s (Chan.Join s id nick) := by
  unfold Chan.Join; split
  · exact Emits.idle _ _
  · exact Emits.single (Out.join id nick) rfl rfl

theorem chanBatchJoin_silent (s : Session) (id : String) (nicks : List String) :
    Emits Silent s (Chan.BatchJoin s id nicks) :=
  Emits.single (Out.batchJoin id nicks) rfl rfl

theorem chanTopic_silent (s : Session) (id : String) (src : Option UserInfo) (t : String) :
    Emits Silent s (Chan.Topic s id src t) :=
  Emits.single (Out.topic id (src.map (fun (g : UserInfo) => g.Nick)) t) rfl rfl

theorem syncGhosts_out (users : List UserInfo) :
    ∀ (s : Session) (acc : List String), (syncGhosts s users acc).1.out = s.out := by
  induction users with
  | nil => intro s acc; rfl
  | cons g rest ih =>
    intro s acc
    simp only [syncGhosts]
    split
    · exact ih s acc
    · rw [ih]; exact createUserFromInfo_out s g

theorem syncMe_silent (cx : Ctx) (id : String) (users : List UserInfo) :
    ∀ s : Session, Emits Silent s (syncMe cx id s users) := by
  induction users with
  | nil => intro s; exact Emits.idle _ _
  | cons g rest ih =>
    intro s
    simp only [syncMe]
    split
    · exact ih s
    · split
      · exact Emits.idle _ _
      · split
        · exact ih s
        · exact ((chanJoin_silent s id s.u.Nick).seq (chanTopic_silent _ _ _ _)).seq (ih _)

theorem syncChannel_silent (cx : Ctx) (s : Session) (id name : String) :
    Emits Silent s (syncChannel cx s id name) := by
  unfold syncChannel
  split
  · exact Emits.of_out_eq rfl
  · simp only [addUsersToChannel]
    refine Emits.seq ?_ (syncMe_silent cx id _ _)
    refine Emits.seq ?_ (chanBatchJoin_silent _ _ _)
    exact Emits.of_out_eq (by rw [syncGhosts_out])

theorem joinGroup_silent (cx : Ctx) (s : Session) (id ty : String) :
    Emits Silent s (joinGroup cx s id ty) := by
  unfold joinGroup
  split
  · dsimp only
    split
    · refine Emits.seq ?_ (syncChannel_silent cx _ _ _)
      exact Emits.seq (Emits.of_out_eq (createUserFromInfo_out _ _)) (chanJoin_silent _ _ _)
    · exact Emits.of_out_eq (createUserFromInfo_out _ _)
  · exact Emits.idle _ _

theorem getMessageChannel_silent (cx : Ctx) (s : Session) (id ty : String) (sender : UserInfo) :
    Emits Silent s (getMessageChannel cx s id ty sender).1 := by
  simp only [getMessageChannel]
  refine Emits.seq (joinGroup_silent cx s id ty) ?_
  split
  · exact Emits.seq (Emits.of_out_eq (createUserFromInfo_out _ _)) (chanJoin_silent _ _ _)
  · exact Emits.of_out_eq (createUserFromInfo_out _ _)

/-! ## Policy filter -/

theorem stringInSlice_iff (a : String) (l : List String) :
    stringInSlice a l = true ↔ a ∈ l := by
  unfold stringInSlice
  simp only [List.any_eq_true, beq_iff_eq]
  constructor
  · rintro ⟨b, hb, rfl⟩; exact hb
  · intro h; exact ⟨a, h, rfl⟩

theorem stringInSlice_false_iff (a : String) (l : List String) :
    stringInSlice a l = false ↔ a ∉ l := by
  rw [← stringInSlice_iff]; simp

theorem getMessageChannel_resolve (cx : Ctx) (s : Session) (channelID channelType : String)
    (sender : UserInfo) :
    (getMessageChannel cx s channelID channelType sender).2 =
      (if cx.chanName channelID ∈ cx.v.GetStringSlice (cx.br.Protocol ++ ".joinexclude") then
        "&messages"
      else if cx.v.GetStringSlice (cx.br.Protocol ++ ".joininclude") ≠ [] ∧
          cx.chanName channelID ∉ cx.v.GetStringSlice (cx.br.Protocol ++ ".joininclude") then
        "&messages"
      else channelID) := by
  simp only [getMessageChannel]
  by_cases hex : cx.chanName channelID ∈ cx.v.GetStringSlice (cx.br.Protocol ++ ".joinexclude")
  · rw [if_pos ((stringInSlice_iff _ _).2 hex), if_pos hex]
    split <;> rfl
  · have hex2 : stringInSlice (cx.chanName channelID)
        (cx.v.GetStringSlice (cx.br.Protocol ++ ".joinexclude")) = false :=
      (stringInSlice_false_iff _ _).2 hex
    rw [hex2, if_neg hex]
    simp only [Bool.false_eq_true, if_false]
    by_cases hin : cx.v.GetStringSlice (cx.br.Protocol ++ ".joininclude") ≠ [] ∧
        cx.chanName channelID ∉ cx.v.GetStringSlice (cx.br.Protocol ++ ".joininclude")
    · rw [if_pos hin, if_pos]
      simp only [Bool.and_eq_true, decide_eq_true_eq, Bool.not_eq_true',
        stringInSlice_false_iff]
      exact ⟨List.length_pos.2 hin.1, hin.2⟩
    · rw [if_neg hin, if_neg]
      simp only [Bool.and_eq_true, decide_eq_true_eq, Bool.not_eq_true',
        stringInSlice_false_iff]
      intro h
      exact hin ⟨List.length_pos.1 h.1, h.2⟩

/-- C1: the channel returned by `getMessageChannel` is `&messages` when the
name of the channel for the ID is in `joinexclude`; otherwise `&messages` when
`joininclude` is non-empty and does not hold the name; otherwise the channel
for the ID.  A channel message is emitted to that channel with its text
unchanged; with `joinexclude = ["#general"]` a message for `#general` goes to
`&messages`. -/
theorem getMessageChannel_policy (cx : Ctx) (s : Session) (channelID channelType : String)
    (sender : UserInfo) (event : ChannelMessageEvent) :
    (getMessageChannel cx s channelID channelType sender).2 =
      (if cx.chanName channelID ∈ cx.v.GetStringSlice (cx.br.Protocol ++ ".joinexclude") then
        "&messages"
      else if cx.v.GetStringSlice (cx.br.Protocol ++ ".joininclude") ≠ [] ∧
          cx.chanName channelID ∉ cx.v.GetStringSlice (cx.br.Protocol ++ ".joininclude") then
        "&messages"
      else channelID)
    ∧ (∃ nick, (handleChannelMessageEvent cx s event).out =
        (getMessageChannel cx s event.ChannelID event.ChannelType event.Sender).1.out ++
          [if event.MessageType = "notice" then
            Out.spoofNotice
              (getMessageChannel cx s event.ChannelID event.ChannelType event.Sender).2
              nick event.Text
          else
            Out.spoofMessage
              (getMessageChannel cx s event.ChannelID event.ChannelType event.Sender).2
              nick event.Text])
    ∧ (handleChannelMessageEvent (exCtx ["#general"] []) (exSession "me")
          { Text := "hello world", ChannelID := "general", Sender := mkUser "alice" false,
            MessageType := "", ChannelType := "O", Files := [] }).out =
        [Out.join "general" "alice", Out.spoofMessage "&messages" "alice" "hello world"] := by
  refine ⟨getMessageChannel_resolve cx s channelID channelType sender, ?_, ?_⟩
  · refine ⟨if event.Sender.Me then s.u.Nick else event.Sender.Nick, ?_⟩
    simp only [handleChannelMessageEvent]
    have hout : ∀ (c : Bool) (r : Session) (k n : String),
        (if c then renameFresh r k n else r).out = r.out ∧
        (if c then renameFresh r k n else r).u = r.u := by
      intro c r k n; split <;> exact ⟨rfl, rfl⟩
    by_cases hn : event.MessageType = "notice"
    · simp only [hn, beq_self_eq_true, if_true, Chan.SpoofNotice, (hout _ _ _ _).1,
        (hout _ _ _ _).2, getMessageChannel_u]
    · have hb : (event.MessageType == "notice") = false := by simpa using hn
      simp only [hn, hb, Bool.false_eq_true, if_false, Chan.SpoofMessage, (hout _ _ _ _).1,
        (hout _ _ _ _).2, getMessageChannel_u]
  · decide

/-! ## Self-echo correction -/

theorem MsgSpoofUser_emits (cx : Ctx) (sender : UserInfo) (rcvuser : String) (ls : List String) :
    ∀ s : Session, Emits (fun o => o.sender = some sender.Nick) s
      (ls.foldl (msgSpoofLine cx sender rcvuser) s) := by
  induction ls with
  | nil => intro s; exact Emits.idle _ _
  | cons l rest ih =>
    intro s
    rw [List.foldl_cons]
    refine Emits.seq ?_ (ih _)
    unfold msgSpoofLine
    dsimp only
    split
    · exact Emits.idle _ _
    · exact Emits.single _ rfl rfl

/-- C5: when the `Sender` of a channel message or of a direct message is the
principal (`Me`), every message or notice the handler emits carries the
principal's current nickname `u.Nick` as its sender, whatever nickname the
event's `Sender` record holds (and a channel message emits exactly one). -/
theorem self_echo_sender (cx : Ctx) (s : Session) (cm : ChannelMessageEvent)
    (dm : DirectMessageEvent) :
    (cm.Sender.Me = true →
      ∃ pre o, (handleChannelMessageEvent cx s cm).out = s.out ++ pre ++ [o] ∧
        (∀ x ∈ pre, x.sender = none) ∧ o.sender = some s.u.Nick) ∧
    (dm.Sender.Me = true →
      ∃ ext, (handleDirectMessageEvent cx s dm).out = s.out ++ ext ∧
        ∀ x ∈ ext, x.sender = some s.u.Nick) := by
  constructor
  · intro hme
    obtain ⟨pre, hpre, hsil⟩ := getMessageChannel_silent cx s cm.ChannelID cm.ChannelType cm.Sender
    have hout : ∀ (c : Bool) (r : Session) (k n : String),
        (if c then renameFresh r k n else r).out = r.out ∧
        (if c then renameFresh r k n else r).u = r.u := by
      intro c r k n; split <;> exact ⟨rfl, rfl⟩
    simp only [handleChannelMessageEvent, hme, if_true]
    by_cases hn : cm.MessageType = "notice"
    · refine ⟨pre, Out.spoofNotice
        (getMessageChannel cx s cm.ChannelID cm.ChannelType cm.Sender).2 s.u.Nick cm.Text,
        ?_, hsil, rfl⟩
      simp only [hn, beq_self_eq_true, if_true, Chan.SpoofNotice, (hout _ _ _ _).1,
        (hout _ _ _ _).2, getMessageChannel_u, hpre]
    · have hb : (cm.MessageType == "notice") = false := by simpa using hn
      refine ⟨pre, Out.spoofMessage
        (getMessageChannel cx s cm.ChannelID cm.ChannelType cm.Sender).2 s.u.Nick cm.Text,
        ?_, hsil, rfl⟩
      simp only [hb, Bool.false_eq_true, if_false, Chan.SpoofMessage, (hout _ _ _ _).1,
        (hout _ _ _ _).2, getMessageChannel_u, hpre]
  · intro hme
    simp only [handleDirectMessageEvent, hme, if_true, MsgSpoofUser]
    exact MsgSpoofUser_emits cx s.u dm.Receiver _ s

/-- C5 at a concrete pair of events: the backend calls the principal `mmuser`,
the principal's nickname on the frontend is `ircnick`. -/
theorem self_echo_sender_witness :
    (∃ pre o, (handleChannelMessageEvent (exCtx [] []) (exSession "ircnick")
        { Text := "hi", ChannelID := "town", Sender := mkUser "mmuser" true,
          MessageType := "notice", ChannelType := "O", Files := [] }).out =
          (exSession "ircnick").out ++ pre ++ [o] ∧
        (∀ x ∈ pre, x.sender = none) ∧ o.sender = some (exSession "ircnick").u.Nick) ∧
    (∃ ext, (handleDirectMessageEvent (exCtx [] []) (exSession "ircnick")
        { Text := "hi", Receiver := "bob", Sender := mkUser "mmuser" true, Files := [] }).out =
          (exSession "ircnick").out ++ ext ∧
        ∀ x ∈ ext, x.sender = some (exSession "ircnick").u.Nick) :=
  ⟨(self_echo_sender (exCtx [] []) (exSession "ircnick")
      { Text := "hi", ChannelID := "town", Sender := mkUser "mmuser" true,
        MessageType := "notice", ChannelType := "O", Files := [] }
      { Text := "hi", Receiver := "bob", Sender := mkUser "mmuser" true, Files := [] }).1 rfl,
   (self_echo_sender (exCtx [] []) (exSession "ircnick")
      { Text := "hi", ChannelID := "town", Sender := mkUser "mmuser" true,
        MessageType := "notice", ChannelType := "O", Files := [] }
      { Text := "hi", Receiver := "bob", Sender := mkUser "mmuser" true, Files := [] }).2 rfl⟩

/-! ## Ghost uniqueness -/

theorem HasUser_none_iff (s : Session) (nick : String) :
    HasUser s nick = none ↔ nick ∉ registeredNicks s := by
  unfold HasUser registeredNicks
  simp only [Option.map_eq_none', List.find?_eq_none, beq_iff_eq, List.mem_map, not_exists,
    not_and]

theorem createUserFromInfo_known (s : Session) (info g : UserInfo)
    (h : HasUser s info.Nick = some g) : createUserFromInfo s info = (s, g) := by
  unfold createUserFromInfo; rw [h]

theorem createUserFromInfo_fresh (s : Session) (info : UserInfo)
    (h : HasUser s info.Nick = none) :
    createUserFromInfo s info = ({ s with users := s.users ++ [(info.Nick, info)] }, info) := by
  unfold createUserFromInfo Add; rw [h]

theorem HasUser_created (s : Session) (info : UserInfo) :
    HasUser (createUserFromInfo s info).1 info.Nick = some (createUserFromInfo s info).2 := by
  cases h : HasUser s info.Nick with
  | some g => rw [createUserFromInfo_known s info g h]; exact h
  | none =>
    rw [createUserFromInfo_fresh s info h]
    have h2 : List.find? (fun g => g.1 == info.Nick) s.users = none := by
      simpa [HasUser] using h
    simp [HasUser, List.find?_append, h2]

theorem HasUser_persist (s : Session) (info g : UserInfo) (nick : String)
    (h : HasUser s nick = some g) : HasUser (createUserFromInfo s info).1 nick = some g := by
  cases h1 : HasUser s info.Nick with
  | some g1 => rw [createUserFromInfo_known s info g1 h1]; exact h
  | none =>
    rw [createUserFromInfo_fresh s info h1]
    unfold HasUser at h ⊢
    simp only [Option.map_eq_some'] at h ⊢
    obtain ⟨a, ha, rfl⟩ := h
    exact ⟨a, by simp [List.find?_append, ha], rfl⟩

theorem HasUser_createMany_persist (infos : List UserInfo) :
    ∀ (s : Session) (g : UserInfo) (nick : String), HasUser s nick = some g →
      HasUser (createMany s infos).1 nick = some g := by
  induction infos with
  | nil => intro s g nick h; exact h
  | cons info rest ih =>
    intro s g nick h
    simp only [createMany]
    exact ih _ g nick (HasUser_persist s info g nick h)

theorem registeredNicks_create (s : Session) (info : UserInfo) :
    registeredNicks (createUserFromInfo s info).1 =
      if info.Nick ∈ registeredNicks s then registeredNicks s
      else registeredNicks s ++ [info.Nick] := by
  cases h : HasUser s info.Nick with
  | some g =>
    have hm : info.Nick ∈ registeredNicks s := by
      by_contra hc; rw [(HasUser_none_iff s info.Nick).2 hc] at h; cases h
    rw [createUserFromInfo_known s info g h, if_pos hm]
  | none =>
    rw [createUserFromInfo_fresh s info h, if_neg ((HasUser_none_iff s info.Nick).1 h)]
    simp [registeredNicks]

theorem nodup_create (s : Session) (info : UserInfo) (h : (registeredNicks s).Nodup) :
    (registeredNicks (createUserFromInfo s info).1).Nodup := by
  rw [registeredNicks_create]
  split
  · exact h
  · rename_i hn
    exact List.Nodup.append h (List.nodup_singleton _) (by simpa using hn)

theorem nodup_createMany (infos : List UserInfo) :
    ∀ s : Session, (registeredNicks s).Nodup → (registeredNicks (createMany s infos).1).Nodup := by
  induction infos with
  | nil => intro s h; exact h
  | cons info rest ih => intro s h; exact ih _ (nodup_create s info h)

theorem createMany_observed (infos : List UserInfo) :
    ∀ s : Session, (createMany s infos).2.map some =
      infos.map (fun info => HasUser (createMany s infos).1 info.Nick) := by
  induction infos with
  | nil => intro s; rfl
  | cons info rest ih =>
    intro s
    simp only [createMany, List.map_cons, List.cons.injEq]
    exact ⟨(HasUser_createMany_persist rest _ _ _ (HasUser_created s info)).symm, ih _⟩

theorem createMany_append (pre post : List UserInfo) :
    ∀ s : Session, (createMany s (pre ++ post)).1 = (createMany (createMany s pre).1 post).1 := by
  induction pre with
  | nil => intro s; rfl
  | cons info rest ih => intro s; simp only [List.cons_append, createMany]; exact ih _

theorem createMany_skip (pre : List UserInfo) (nick : String) :
    ∀ s : Session, HasUser s nick = none → (∀ p ∈ pre, p.Nick ≠ nick) →
      HasUser (createMany s pre).1 nick = none := by
  induction pre with
  | nil => intro s h _; exact h
  | cons info rest ih =>
    intro s h hp
    simp only [createMany]
    refine ih _ ?_ (fun p hpm => hp p (List.mem_cons_of_mem _ hpm))
    rw [HasUser_none_iff] at h ⊢
    rw [registeredNicks_create]
    have hne : info.Nick ≠ nick := hp info (List.mem_cons_self _ _)
    split
    · exact h
    · simp only [List.mem_append, List.mem_singleton, not_or]
      exact ⟨h, fun e => hne e.symm⟩

/-- C2: a registry holds at most one ghost per nickname.  A call of
`createUserFromInfo` for a registered nickname returns the registered ghost and
leaves the registry as it is, whatever the other fields of the record; a call
for an unknown nickname registers exactly that record.  Over any sequence of
calls the registered nicknames stay pairwise distinct, every call returns the
ghost the final registry holds for its nickname, and for a nickname new to the
registry that ghost is the record of the first call with that nickname. -/
theorem ghost_unique (s : Session) (infos : List UserInfo)
    (hs : (registeredNicks s).Nodup) :
    (∀ info g, HasUser s info.Nick = some g → createUserFromInfo s info = (s, g)) ∧
    (∀ info, HasUser s info.Nick = none →
      createUserFromInfo s info =
        ({ s with users := s.users ++ [(info.Nick, info)] }, info)) ∧
    (registeredNicks (createMany s infos).1).Nodup ∧
    (createMany s infos).2.map some =
      infos.map (fun info => HasUser (createMany s infos).1 info.Nick) ∧
    (∀ pre info post, infos = pre ++ info :: post → HasUser s info.Nick = none →
      (∀ p ∈ pre, p.Nick ≠ info.Nick) →
      HasUser (createMany s infos).1 info.Nick = some info) := by
  refine ⟨createUserFromInfo_known s, createUserFromInfo_fresh s, nodup_createMany infos s hs,
    createMany_observed infos s, ?_⟩
  intro pre info post hsplit hnone hpre
  subst hsplit
  rw [createMany_append]
  simp only [createMany]
  apply HasUser_createMany_persist
  have h := createMany_skip pre info.Nick s hnone hpre
  rw [createUserFromInfo_fresh _ info h]
  have h2 : List.find? (fun g => g.1 == info.Nick) (createMany s pre).1.users = none := by
    simpa [HasUser] using h
  simp [HasUser, List.find?_append, h2]

/-- C2 on a registry that already holds `bob`, for the calls `alice`, `bob`,
and `alice` again with a different record. -/
theorem ghost_unique_witness :
    (registeredNicks (createMany
      { exSession "me" with users := [("bob", mkUser "bob" false)] }
      [mkUser "alice" false, mkUser "bob" false,
        { mkUser "alice" false with Host := "elsewhere" }]).1).Nodup :=
  (ghost_unique { exSession "me" with users := [("bob", mkUser "bob" false)] }
    [mkUser "alice" false, mkUser "bob" false,
      { mkUser "alice" false with Host := "elsewhere" }] (by decide)).2.2.1

/-! ## Reserved channels -/

/-- C6, as stated, fails: with `joinexclude = ["&users"]` the roster channel
`&users` is redirected to `&messages`. -/
theorem reserved_redirect_counterexample :
    (getMessageChannel (exCtx ["&users"] []) (exSession "me") "&users" "O"
      (mkUser "alice" false)).2 ≠ "&users" := by
  decide

/-- C6, amended: `getMessageChannel` has no exemption for reserved channels.
Resolving `&messages` always yields `&messages` (it is the redirection
target); resolving `&users` yields `&users` exactly when `&users` is not in
`joinexclude` and `joininclude` is empty or holds `&users`, and `&messages`
otherwise. -/
theorem reserved_channels (cx : Ctx) (s : Session) (channelType : String) (sender : UserInfo)
    (hname : cx.chanName "&users" = "&users") :
    (getMessageChannel cx s "&messages" channelType sender).2 = "&messages" ∧
    ((getMessageChannel cx s "&users" channelType sender).2 = "&users" ↔
      ("&users" ∉ cx.v.GetStringSlice (cx.br.Protocol ++ ".joinexclude") ∧
        (cx.v.GetStringSlice (cx.br.Protocol ++ ".joininclude") = [] ∨
          "&users" ∈ cx.v.GetStringSlice (cx.br.Protocol ++ ".joininclude")))) ∧
    ((getMessageChannel cx s "&users" channelType sender).2 = "&users" ∨
      (getMessageChannel cx s "&users" channelType sender).2 = "&messages") := by
  have hne : ("&messages" : String) ≠ "&users" := by decide
  refine ⟨?_, ?_, ?_⟩
  · rw [getMessageChannel_resolve]
    split
    · rfl
    · split <;> rfl
  · rw [getMessageChannel_resolve, hname]
    by_cases hex : "&users" ∈ cx.v.GetStringSlice (cx.br.Protocol ++ ".joinexclude")
    · rw [if_pos hex]
      constructor
      · intro h; exact absurd h hne
      · intro h; exact absurd hex h.1
    · rw [if_neg hex]
      by_cases hin : cx.v.GetStringSlice (cx.br.Protocol ++ ".joininclude") ≠ [] ∧
          "&users" ∉ cx.v.GetStringSlice (cx.br.Protocol ++ ".joininclude")
      · rw [if_pos hin]
        constructor
        · intro h; exact absurd h hne
        · rintro ⟨_, h | h⟩
          · exact absurd h hin.1
          · exact absurd h hin.2
      · rw [if_neg hin]
        refine ⟨fun _ => ⟨hex, ?_⟩, fun _ => rfl⟩
        by_cases he : cx.v.GetStringSlice (cx.br.Protocol ++ ".joininclude") = []
        · exact Or.inl he
        · right
          by_contra hc
          exact hin ⟨he, hc⟩
  · rw [getMessageChannel_resolve]
    split
    · exact Or.inr rfl
    · split
      · exact Or.inr rfl
      · exact Or.inl rfl

/-- C6, amended, at a configuration whose inclusion list names `&users`. -/
theorem reserved_channels_witness :
    (exCtx [] ["&users"]).chanName "&users" = "&users" ∧
    (getMessageChannel (exCtx [] ["&users"]) (exSession "me") "&users" "O"
      (mkUser "alice" false)).2 = "&users" :=
  ⟨rfl, ((reserved_channels (exCtx [] ["&users"]) (exSession "me") "O" (mkUser "alice" false)
    rfl).2.1).2 (by decide)⟩

/-! ## Resync and the inclusion list -/

/-- C7 at the failing input: `joininclude = ["#other"]`, channel `town` (named
`#town`) whose backend membership is the principal alone.  The policy filter
redirects `#town` to `&messages`, yet `syncChannel` joins the principal to
`town` and sets its topic: it tests `joinexclude` only. -/
theorem syncChannel_ignores_joininclude :
    (getMessageChannel (exCtxMembers [] ["#other"] [mkUser "me" true]) (exSession "me")
        "town" "O" (mkUser "alice" false)).2 = "&messages" ∧
    (syncChannel (exCtxMembers [] ["#other"] [mkUser "me" true]) (exSession "me")
        "town" "town").out =
      [Out.batchJoin "town" [], Out.join "town" "me", Out.topic "town" none ""] ∧
    Chan.HasUser (syncChannel (exCtxMembers [] ["#other"] [mkUser "me" true]) (exSession "me")
        "town" "town") "town" "me" = true := by
  decide

/-! ## Absent acting user -/

/-- C10 at the failing input: a `ChannelAdd` event without `Adder` that adds
one other user ends in a nil-pointer dereference, while the `ChannelRemove`
event without `Remover` completes with the generic notice. -/
theorem channelAdd_nil_adder :
    (handleChannelAddEvent (exCtx [] []) (exSession "me")
        { Adder := none, Added := [mkUser "alice" false], ChannelID := "town" }).isNone = true ∧
    (handleChannelRemoveEvent (exSession "me")
        { Remover := none, Removed := [mkUser "alice" false], ChannelID := "town" }).out =
      [Out.part "town" "alice",
        Out.spoofMessage "town" "system" "removed alice from the channel"] := by
  decide

/-! ## Registry and membership only grow under resync and join -/

theorem find_filter_ne (l : List Chan) (a b : String) (h : a ≠ b) :
    List.find? (fun c => c.ID == b) (l.filter (fun d => !(d.ID == a))) =
      List.find? (fun c => c.ID == b) l := by
  induction l with
  | nil => rfl
  | cons c rest ih =>
    by_cases hc : c.ID = a
    · have hab : (a == b) = false := by simpa using h
      subst hc
      simp [List.filter_cons, List.find?_cons, hab, ih]
    · have hc2 : (c.ID == a) = false := by simpa using hc
      simp only [List.filter_cons, hc2, Bool.not_false, if_true, List.find?_cons, ih]

theorem Channel_ID (s : Session) (id : String) : (Channel s id).ID = id := by
  unfold Channel
  cases h : List.find? (fun c => c.ID == id) s.chans with
  | none => rfl
  | some c =>
    have := List.find?_some h
    simpa using this

theorem Channel_putChan (s : Session) (c : Chan) (id : String) :
    Channel (putChan s c) id = if c.ID = id then c else Channel s id := by
  unfold Channel putChan
  by_cases h : c.ID = id
  · simp [List.find?_cons, h]
  · have hb : (c.ID == id) = false := by simpa using h
    simp only [List.find?_cons, hb, if_neg h]
    rw [find_filter_ne _ _ _ h]

theorem Channel_chans {s t : Session} (h : t.chans = s.chans) (id : String) :
    Channel t id = Channel s id := by
  unfold Channel; rw [h]

theorem chanHasUser_iff (s : Session) (id nick : String) :
    Chan.HasUser s id nick = true ↔ nick ∈ (Channel s id).members := by
  unfold Chan.HasUser
  simp only [List.any_eq_true, beq_iff_eq]
  constructor
  · rintro ⟨m, hm, rfl⟩; exact hm
  · intro h; exact ⟨nick, h, rfl⟩

theorem Grows.same (s : Session) : Grows s s := ⟨fun _ _ h => h, fun _ _ h => h⟩

theorem Grows.step {s t r : Session} (h1 : Grows s t) (h2 : Grows t r) : Grows s r :=
  ⟨fun n g h => h2.1 n g (h1.1 n g h), fun i n h => h2.2 i n (h1.2 i n h)⟩

theorem Grows.of_eq {s t : Session} (hu : t.users = s.users) (hc : t.chans = s.chans) :
    Grows s t :=
  ⟨fun n g h => by unfold HasUser at h ⊢; rw [hu]; exact h,
   fun i n h => by rw [Channel_chans hc]; exact h⟩

theorem createUserFromInfo_chans (s : Session) (info : UserInfo) :
    (createUserFromInfo s info).1.chans = s.chans := by
  unfold createUserFromInfo; split
  · rfl
  · unfold Add; split <;> rfl

theorem createUserFromInfo_grows (s : Session) (info : UserInfo) :
    Grows s (createUserFromInfo s info).1 :=
  ⟨fun n g h => HasUser_persist s info g n h,
   fun i n h => by rw [Channel_chans (createUserFromInfo_chans s info)]; exact h⟩

theorem members_addMembers (s t : Session) (id : String) (extra : List String)
    (hc : t.chans = (putChan s { Channel s id with
      members := (Channel s id).members ++ extra }).chans) (i : String) :
    (Channel t i).members =
      if id = i then (Channel s id).members ++ extra else (Channel s i).members := by
  have h1 : Channel t i = Channel (putChan s { Channel s id with
      members := (Channel s id).members ++ extra }) i := Channel_chans hc i
  rw [h1, Channel_putChan]
  simp only [Channel_ID]
  split <;> rfl

theorem chanJoin_members (s : Session) (id nick i : String) :
    (Channel (Chan.Join s id nick) i).members =
      if id = i ∧ nick ∉ (Channel s id).members then (Channel s id).members ++ [nick]
      else (Channel s i).members := by
  unfold Chan.Join
  by_cases h : Chan.HasUser s id nick = true
  · rw [if_pos h, if_neg]
    rintro ⟨_, h2⟩
    exact h2 ((chanHasUser_iff s id nick).1 h)
  · rw [if_neg h]
    have hn : nick ∉ (Channel s id).members := fun hc => h ((chanHasUser_iff s id nick).2 hc)
    refine Eq.trans (members_addMembers s _ id [nick] rfl i) ?_
    by_cases hi : id = i
    · rw [if_pos hi, if_pos ⟨hi, hn⟩]
    · rw [if_neg hi, if_neg (fun hc => hi hc.1)]

theorem chanJoin_grows (s : Session) (id nick : String) : Grows s (Chan.Join s id nick) := by
  refine ⟨fun n g h => ?_, fun i n h => ?_⟩
  · have hu : (Chan.Join s id nick).users = s.users := by unfold Chan.Join; split <;> rfl
    unfold HasUser at h ⊢; rw [hu]; exact h
  · rw [chanJoin_members]
    split
    · rename_i hc; obtain ⟨hc1, _⟩ := hc; subst hc1; exact List.mem_append_left _ h
    · exact h

theorem chanJoin_mem (s : Session) (id nick : String) :
    nick ∈ (Channel (Chan.Join s id nick) id).members := by
  rw [chanJoin_members]
  split
  · exact List.mem_append_right _ (List.mem_singleton_self _)
  · rename_i hc
    by_contra hn
    exact hc ⟨rfl, hn⟩

theorem chanBatchJoin_grows (s : Session) (id : String) (nicks : List String) :
    Grows s (Chan.BatchJoin s id nicks) := by
  refine ⟨fun n g h => h, fun i n h => ?_⟩
  unfold Chan.BatchJoin
  dsimp only
  refine (members_addMembers s _ id _ rfl i).symm ▸ ?_
  split
  · rename_i hc; subst hc; exact List.mem_append_left _ h
  · exact h

theorem chanTopic_grows (s : Session) (id : String) (src : Option UserInfo) (t : String) :
    Grows s (Chan.Topic s id src t) := by
  refine ⟨fun n g h => h, fun i n h => ?_⟩
  have h1 : Channel (Chan.Topic s id src t) i =
      Channel (putChan s { Channel s id with topic := t }) i := Channel_chans rfl i
  rw [h1, Channel_putChan]
  simp only [Channel_ID]
  split
  · rename_i hc; subst hc; exact h
  · exact h

theorem syncGhosts_grows (users : List UserInfo) :
    ∀ (s : Session) (acc : List String), Grows s (syncGhosts s users acc).1 := by
  induction users with
  | nil => intro s acc; exact Grows.same s
  | cons g rest ih =>
    intro s acc
    simp only [syncGhosts]
    split
    · exact ih s acc
    · exact (createUserFromInfo_grows s g).step (ih _ _)

theorem syncMe_grows (cx : Ctx) (id : String) (users : List UserInfo) :
    ∀ s : Session, Grows s (syncMe cx id s users) := by
  induction users with
  | nil => intro s; exact Grows.same s
  | cons g rest ih =>
    intro s
    simp only [syncMe]
    split
    · exact ih s
    · split
      · exact Grows.same s
      · split
        · exact ih s
        · exact ((chanJoin_grows s id s.u.Nick).step (chanTopic_grows _ _ _ _)).step (ih _)

theorem syncChannel_grows (cx : Ctx) (s : Session) (id name : String) :
    Grows s (syncChannel cx s id name) := by
  unfold syncChannel
  split
  · exact Grows.of_eq rfl rfl
  · simp only [addUsersToChannel]
    refine Grows.step ?_ (syncMe_grows cx id _ _)
    refine Grows.step ?_ (chanBatchJoin_grows _ _ _)
    exact Grows.step (t := { s with calls := s.calls ++ [BrCall.GetChannelUsers id] })
      (Grows.of_eq rfl rfl) (syncGhosts_grows _ _ _)

/-! ## Backend calls issued by an operation -/

@[simp] theorem createUserFromInfo_calls (s : Session) (info : UserInfo) :
    (createUserFromInfo s info).1.calls = s.calls := by
  unfold createUserFromInfo; split
  · rfl
  · unfold Add; split <;> rfl

@[simp] theorem chanJoin_calls (s : Session) (id nick : String) :
    (Chan.Join s id nick).calls = s.calls := by
  unfold Chan.Join; split <;> rfl

theorem syncGhosts_calls (users : List UserInfo) :
    ∀ (s : Session) (acc : List String), (syncGhosts s users acc).1.calls = s.calls := by
  induction users with
  | nil => intro s acc; rfl
  | cons g rest ih =>
    intro s acc
    simp only [syncGhosts]
    split
    · exact ih s acc
    · rw [ih]; exact createUserFromInfo_calls s g

theorem syncMe_calls (cx : Ctx) (id : String) (users : List UserInfo) :
    ∀ s : Session, (syncMe cx id s users).calls = s.calls := by
  induction users with
  | nil => intro s; rfl
  | cons g rest ih =>
    intro s
    simp only [syncMe]
    split
    · exact ih s
    · split
      · rfl
      · split
        · exact ih s
        · rw [ih]; exact chanJoin_calls s id s.u.Nick

theorem syncChannel_calls (cx : Ctx) (s : Session) (id name : String) :
    (syncChannel cx s id name).calls = s.calls ++ [BrCall.GetChannelUsers id] := by
  unfold syncChannel
  split
  · rfl
  · simp only [addUsersToChannel]
    rw [syncMe_calls]
    show (syncGhosts _ _ _).1.calls = _
    rw [syncGhosts_calls]

/-! ## Members added to a channel -/

theorem filter_sender_silent (ext : List Out) (h : ∀ o ∈ ext, Silent o) :
    ext.filter (fun o => o.sender.isSome) = [] := by
  rw [List.filter_eq_nil_iff]
  intro o ho
  rw [show o.sender = none from h o ho]
  simp

theorem channelAddLoop_spec (cx : Ctx) (event : ChannelAddEvent) (adder : UserInfo)
    (h : event.Adder = some adder) (l : List UserInfo) :
    ∀ s : Session, ∃ t, channelAddLoop cx event s l = some t ∧
      (∃ ext, t.out = s.out ++ ext ∧
        ext.filter (fun o => o.sender.isSome) =
          (l.filter (fun a => !a.Me)).map (fun a =>
            Out.spoofMessage event.ChannelID "system"
              ("added " ++ a.Nick ++ " to the channel by " ++ adder.Nick))) ∧
      t.calls = s.calls ++
        (l.filter (fun a => a.Me)).map (fun _ => BrCall.GetChannelUsers event.ChannelID) ∧
      Grows s t ∧
      (∀ a ∈ l, a.Me = false →
        (HasUser t a.Nick).isSome = true ∧ Chan.HasUser t event.ChannelID a.Nick = true) := by
  induction l with
  | nil =>
    intro s
    exact ⟨s, rfl, ⟨[], by simp, rfl⟩, by simp, Grows.same s, by simp⟩
  | cons a rest ih =>
    intro s
    by_cases hme : a.Me = true
    · obtain ⟨t, ht, ⟨ext, hext, hfil⟩, hcalls, hgrow, hmem⟩ :=
        ih (syncChannel cx s event.ChannelID (cx.br.GetChannelName event.ChannelID))
      obtain ⟨e0, he0, hs0⟩ :=
        syncChannel_silent cx s event.ChannelID (cx.br.GetChannelName event.ChannelID)
      refine ⟨t, by simp only [channelAddLoop, hme, if_true]; exact ht, ⟨e0 ++ ext, ?_, ?_⟩,
        ?_, (syncChannel_grows cx s _ _).step hgrow, ?_⟩
      · rw [hext, he0, List.append_assoc]
      · rw [List.filter_append, filter_sender_silent e0 hs0, List.nil_append, hfil]
        simp [List.filter_cons, hme]
      · rw [hcalls, syncChannel_calls]
        simp [List.filter_cons, hme]
      · intro b hb hbme
        rcases List.mem_cons.1 hb with rfl | hb
        · rw [hme] at hbme; cases hbme
        · exact hmem b hb hbme
    · have hme2 : a.Me = false := by simpa using hme
      obtain ⟨t, ht, ⟨ext, hext, hfil⟩, hcalls, hgrow, hmem⟩ :=
        ih (Chan.SpoofMessage (Chan.Join (createUserFromInfo s a).1 event.ChannelID a.Nick)
          event.ChannelID "system" ("added " ++ a.Nick ++ " to the channel by " ++ adder.Nick))
      obtain ⟨e0, he0, hs0⟩ := chanJoin_silent (createUserFromInfo s a).1 event.ChannelID a.Nick
      have hg1 : Grows s (Chan.SpoofMessage (Chan.Join (createUserFromInfo s a).1
          event.ChannelID a.Nick) event.ChannelID "system"
          ("added " ++ a.Nick ++ " to the channel by " ++ adder.Nick)) :=
        ((createUserFromInfo_grows s a).step (chanJoin_grows _ _ _)).step (Grows.of_eq rfl rfl)
      refine ⟨t, by simp only [channelAddLoop, hme2, Bool.false_eq_true, if_false, h]; exact ht,
        ⟨e0 ++ Out.spoofMessage event.ChannelID "system"
          ("added " ++ a.Nick ++ " to the channel by " ++ adder.Nick) :: ext, ?_, ?_⟩,
        ?_, hg1.step hgrow, ?_⟩
      · rw [hext]
        simp only [Chan.SpoofMessage, he0, createUserFromInfo_out, List.append_assoc,
          List.singleton_append]
      · rw [List.filter_append, filter_sender_silent e0 hs0, List.nil_append,
          List.filter_cons_of_pos (by rfl), hfil,
          List.filter_cons_of_pos (by simp [hme2]), List.map_cons]
      · rw [hcalls]
        simp [Chan.SpoofMessage, List.filter_cons, hme2]
      · intro b hb hbme
        rcases List.mem_cons.1 hb with rfl | hb
        · have hreg : HasUser (createUserFromInfo s b).1 b.Nick =
              some (createUserFromInfo s b).2 := HasUser_created s b
          have hgr : Grows (createUserFromInfo s b).1 t :=
            ((chanJoin_grows _ _ _).step (Grows.of_eq rfl rfl)).step hgrow
          refine ⟨by rw [hgr.1 _ _ hreg]; rfl, ?_⟩
          rw [chanHasUser_iff]
          apply hgrow.2
          exact (Channel_chans (s := Chan.Join (createUserFromInfo s b).1 event.ChannelID b.Nick)
            rfl event.ChannelID) ▸ chanJoin_mem _ _ _
        · exact hmem b hb hbme

/-- The handler on a `ChannelAdd` event that names its adder: it completes;
the messages and notices it emits are exactly one `system` notice per added
member that is not the principal, in order, naming the added member and the
adder; it resyncs the event's channel (one `GetChannelUsers` call on it) once
per added member that is the principal; and every other added member ends up
registered as a ghost and a member of the channel.  An event adding only the
principal is handled by `syncChannel` alone. -/
theorem channelAdd_members (cx : Ctx) (s : Session) (event : ChannelAddEvent)
    (adder : UserInfo) (h : event.Adder = some adder) :
    ∃ t, handleChannelAddEvent cx s event = some t ∧
      (∃ ext, t.out = s.out ++ ext ∧
        ext.filter (fun o => o.sender.isSome) =
          (event.Added.filter (fun a => !a.Me)).map (fun a =>
            Out.spoofMessage event.ChannelID "system"
              ("added " ++ a.Nick ++ " to the channel by " ++ adder.Nick))) ∧
      t.calls = s.calls ++
        (event.Added.filter (fun a => a.Me)).map
          (fun _ => BrCall.GetChannelUsers event.ChannelID) ∧
      (∀ a ∈ event.Added, a.Me = false →
        (HasUser t a.Nick).isSome = true ∧ Chan.HasUser t event.ChannelID a.Nick = true) ∧
      (∀ a, event.Added = [a] → a.Me = true →
        t = syncChannel cx s event.ChannelID (cx.br.GetChannelName event.ChannelID)) := by
  obtain ⟨t, ht, hout, hcalls, _, hmem⟩ := channelAddLoop_spec cx event adder h event.Added s
  refine ⟨t, ht, hout, hcalls, hmem, ?_⟩
  intro a ha hme
  rw [ha] at ht
  simp only [channelAddLoop, hme, if_true, Option.some.injEq] at ht
  exact ht.symm

/-- The handler on an event by `carol` adding the principal and `alice`. -/
theorem channelAdd_members_example :
    (∃ t, handleChannelAddEvent (exCtx [] []) (exSession "me")
        { Adder := some (mkUser "carol" false),
          Added := [mkUser "me" true, mkUser "alice" false], ChannelID := "town" } = some t ∧
      (∃ ext, t.out = (exSession "me").out ++ ext ∧
        ext.filter (fun o => o.sender.isSome) =
          [Out.spoofMessage "town" "system" "added alice to the channel by carol"]) ∧
      t.calls = [BrCall.GetChannelUsers "town"]) :=
  (channelAdd_members (exCtx [] []) (exSession "me")
    { Adder := some (mkUser "carol" false),
      Added := [mkUser "me" true, mkUser "alice" false], ChannelID := "town" }
    (mkUser "carol" false) rfl).imp (fun _ ht => ⟨ht.1, ht.2.1, ht.2.2.1⟩)

/-- C9 at the failing input: a `ChannelAdd` event without `Adder` adding the
principal and `alice`.  The principal's entry resyncs the channel and `alice`
is registered and joined, but the notice is never emitted: building its text
reads `event.Adder.Nick` and the handler ends in a nil-pointer dereference.
The same event with the adder `carol` announces `alice` by one notice. -/
theorem channelAdd_unannounced :
    (handleChannelAddEvent (exCtx [] []) (exSession "me")
        { Adder := none, Added := [mkUser "me" true, mkUser "alice" false],
          ChannelID := "town" }).isNone = true ∧
    (Chan.Join (createUserFromInfo
        (syncChannel (exCtx [] []) (exSession "me") "town" "town")
        (mkUser "alice" false)).1 "town" "alice").out =
      [Out.batchJoin "town" [], Out.join "town" "alice"] ∧
    (handleChannelAddEvent (exCtx [] []) (exSession "me")
        { Adder := some (mkUser "carol" false),
          Added := [mkUser "me" true, mkUser "alice" false],
          ChannelID := "town" }).map (fun t => t.out) =
      some [Out.batchJoin "town" [], Out.join "town" "alice",
        Out.spoofMessage "town" "system" "added alice to the channel by carol"] := by
  decide

/-! ## Backfill: unknown last-viewed time -/

theorem createSpoof_effect (cx : Ctx) (s s1 : Session) (c : ChannelInfo) (spoof : Spoof)
    (h : createSpoof cx s c = some (s1, spoof)) :
    Emits Silent s s1 ∧
    (s1.calls = s.calls ∨ s1.calls = s.calls ++ [BrCall.GetChannelUsers c.ID]) := by
  unfold createSpoof at h
  split at h
  · dsimp only at h
    split at h
    · cases h
    · simp only [Option.some.injEq, Prod.mk.injEq] at h
      obtain ⟨h1, _⟩ := h
      subst h1
      exact ⟨Emits.of_out_eq (createUserFromInfo_out _ _), Or.inl (createUserFromInfo_calls _ _)⟩
  · simp only [Option.some.injEq, Prod.mk.injEq] at h
    obtain ⟨h1, _⟩ := h
    subst h1
    exact ⟨syncChannel_silent _ _ _ _, Or.inr (syncChannel_calls _ _ _ _)⟩

theorem createSpoof_total (cx : Ctx) (s : Session) (c : ChannelInfo)
    (hres : containsDunder c.Name = true →
      (cx.br.GetUser (splitDunderHead c.Name)).isSome = true) :
    ∃ s1 spoof, createSpoof cx s c = some (s1, spoof) := by
  unfold createSpoof
  by_cases hd : containsDunder c.Name = true
  · rw [if_pos hd]
    have := hres hd
    dsimp only
    cases hu : cx.br.GetUser (splitDunderHead c.Name) with
    | none => rw [hu] at this; cases this
    | some info => exact ⟨_, _, rfl⟩
  · rw [if_neg hd]
    exact ⟨_, _, rfl⟩

/-- C8: when `GetLastViewedAt` returns 0 for a channel of the queue (the
worker reaches that call whenever `createSpoof` completes, that is, unless the
channel is a direct-message pseudo-channel of an unknown user), the worker
emits no message or notice for the channel, so no replayed line and no day
marker; it issues no `GetPostsSince` and no `UpdateLastViewed` call; and it
goes on with the rest of the queue. -/
theorem lastViewed_zero_skips (cx : Ctx) (s : Session) (c : ChannelInfo)
    (rest : List ChannelInfo) (h0 : cx.br.GetLastViewedAt c.ID = 0)
    (hres : containsDunder c.Name = true →
      (cx.br.GetUser (splitDunderHead c.Name)).isSome = true) :
    ∃ t, workerChannel cx s c = some t ∧
      (∃ ext, t.out = s.out ++ ext ∧ ∀ o ∈ ext, o.sender = none) ∧
      (∃ issued, t.calls = s.calls ++ issued ∧
        ∀ x ∈ issued, (∀ i n, x ≠ BrCall.GetPostsSince i n) ∧
          ∀ i, x ≠ BrCall.UpdateLastViewed i) ∧
      addUserToChannelWorker cx s (c :: rest) = addUserToChannelWorker cx t rest := by
  obtain ⟨s1, spoof, hsp⟩ := createSpoof_total cx s c hres
  obtain ⟨hsil, hcalls⟩ := createSpoof_effect cx s s1 c spoof hsp
  have hw : workerChannel cx s c = some (logCall s1 (BrCall.GetLastViewedAt c.ID)) := by
    unfold workerChannel
    rw [hsp]
    simp only [h0, beq_self_eq_true, if_true]
  refine ⟨_, hw, hsil, ?_, ?_⟩
  · rcases hcalls with hc | hc
    · refine ⟨[BrCall.GetLastViewedAt c.ID], by simp only [logCall, hc], ?_⟩
      intro x hx
      rw [List.mem_singleton] at hx
      subst hx
      exact ⟨fun _ _ hc => (by cases hc), fun _ hc => (by cases hc)⟩
    · refine ⟨[BrCall.GetChannelUsers c.ID, BrCall.GetLastViewedAt c.ID],
        by simp only [logCall, hc, List.append_assoc, List.singleton_append], ?_⟩
      intro x hx
      simp only [List.mem_cons, List.mem_singleton, List.not_mem_nil, or_false] at hx
      rcases hx with rfl | rfl
      · exact ⟨fun _ _ hc => (by cases hc), fun _ hc => (by cases hc)⟩
      · exact ⟨fun _ _ hc => (by cases hc), fun _ hc => (by cases hc)⟩
  · simp only [addUserToChannelWorker, hw]

/-- C8 at the channel `town` of a backend that reports last-viewed time 0. -/
theorem lastViewed_zero_skips_witness :
    exBridger.GetLastViewedAt "town" = 0 ∧
    ∃ t, workerChannel (exCtx [] []) (exSession "me")
        { Name := "town", ID := "town", TeamID := "team" } = some t ∧
      (∃ ext, t.out = (exSession "me").out ++ ext ∧ ∀ o ∈ ext, o.sender = none) :=
  ⟨rfl, (lastViewed_zero_skips (exCtx [] []) (exSession "me")
    { Name := "town", ID := "town", TeamID := "team" } [] rfl
    (fun hd => absurd hd (by decide))).imp (fun _ ht => ⟨ht.1, ht.2.1⟩)⟩

/-! ## Backfill: from the replay to the emitted lines -/

theorem logCall_out (s : Session) (c : BrCall) : (logCall s c).out = s.out := rfl

theorem foldl_spoofMessage_out (cx : Ctx) (id : String) (out : List Replayed) :
    ∀ s : Session,
      (out.foldl (fun st r => (Spoof.channel id).call cx st r.args.1 r.args.2) s).out =
        s.out ++ out.map (fun r => Out.spoofMessage id r.args.1 r.args.2) := by
  induction out with
  | nil => intro s; simp
  | cons r rest ih =>
    intro s
    rw [List.foldl_cons, ih]
    simp [Spoof.call, Chan.SpoofMessage]

theorem workerChannel_replay (cx : Ctx) (s s1 : Session) (c : ChannelInfo) (id : String)
    (pl : PostList) (out : List Replayed)
    (hsp : createSpoof cx s c = some (s1, Spoof.channel id))
    (hsince : cx.br.GetLastViewedAt c.ID ≠ 0)
    (hpl : cx.br.GetPostsSince c.ID (cx.br.GetLastViewedAt c.ID) = some pl)
    (hout : replayPosts cx pl.Posts pl.Order.reverse "" = some out) :
    ∃ t, workerChannel cx s c = some t ∧
      t.out = s1.out ++ out.map (fun r => Out.spoofMessage id r.args.1 r.args.2) := by
  have hb : (cx.br.GetLastViewedAt c.ID == 0) = false := by simpa using hsince
  unfold workerChannel
  simp only [hsp, hb, Bool.false_eq_true, if_false, hpl, hout]
  split
  · exact ⟨_, rfl, by rw [logCall_out, foldl_spoofMessage_out]; rfl⟩
  · exact ⟨_, rfl, by rw [foldl_spoofMessage_out]; rfl⟩

/-! ## Backfill: which posts are replayed -/

theorem splitChars_ne_nil (sep : Char) (cs : List Char) :
    ∀ acc : List Char, splitChars sep cs acc ≠ [] := by
  induction cs with
  | nil => intro acc; simp [splitChars]
  | cons c rest ih =>
    intro acc
    simp only [splitChars]
    split
    · simp
    · exact ih _

theorem splitLines_ne_nil (m : String) : splitLines m ≠ [] := by
  unfold splitLines
  simp only [ne_eq, List.map_eq_nil_iff]
  exact splitChars_ne_nil _ _ _

theorem replayLines_cons (cx : Ctx) (p : Post) (ts : Int) (info : UserInfo)
    (hu : cx.br.GetUser p.UserId = some info) (ls : List String) :
    ∀ (l prev : String), replayLines cx p ts (l :: ls) prev =
      some ((if cx.lib.formatDate ts = prev then [] else [Replayed.marker (cx.lib.formatDate ts)]) ++
          (l :: ls).map (fun t => Replayed.line info.Nick (cx.lib.formatClock ts) t),
        cx.lib.formatDate ts) := by
  induction ls with
  | nil =>
    intro l prev
    by_cases hd : cx.lib.formatDate ts = prev
    · simp [replayLines, hu, hd]
    · simp [replayLines, hu, hd]
  | cons l2 rest ih =>
    intro l prev
    have hnext : replayLines cx p ts (l2 :: rest)
        (if (cx.lib.formatDate ts != prev) = true then cx.lib.formatDate ts else prev) =
        some ((l2 :: rest).map (fun t => Replayed.line info.Nick (cx.lib.formatClock ts) t),
          cx.lib.formatDate ts) := by
      rw [ih]
      by_cases hd : cx.lib.formatDate ts = prev
      · simp [hd]
      · simp [hd]
    rw [replayLines]
    simp only [hu, hnext]
    by_cases hd : cx.lib.formatDate ts = prev
    · simp [hd]
    · simp [hd]

theorem replayPost_skipped (cx : Ctx) (p : Post) (prev : String) (h : ¬ p.kept) :
    replayPost cx p prev = some ([], prev) := by
  unfold replayPost
  by_cases h1 : p.Type_ = POST_JOIN_LEAVE
  · simp [h1]
  · have h2 : p.DeleteAt > p.CreateAt := by
      by_contra hc; exact h ⟨h1, hc⟩
    simp [h1, h2]

theorem replayPost_kept (cx : Ctx) (p : Post) (prev : String) (info : UserInfo)
    (hu : cx.br.GetUser p.UserId = some info) (h : p.kept) :
    replayPost cx p prev =
      some ((if cx.lib.formatDate p.nanos = prev then []
          else [Replayed.marker (cx.lib.formatDate p.nanos)]) ++ postLines cx p,
        cx.lib.formatDate p.nanos) := by
  unfold replayPost
  have h1 : (p.Type_ == POST_JOIN_LEAVE) = false := by simpa using h.1
  simp only [h1, Bool.false_eq_true, if_false, if_neg h.2]
  obtain ⟨l, ls, hl⟩ := List.exists_cons_of_ne_nil (splitLines_ne_nil p.Message)
  rw [hl, replayLines_cons cx p _ info hu]
  simp only [postLines, hu, hl, Post.nanos]

theorem postLines_ne_nil (cx : Ctx) (p : Post) (info : UserInfo)
    (hu : cx.br.GetUser p.UserId = some info) : postLines cx p ≠ [] := by
  simp only [postLines, hu, ne_eq, List.map_eq_nil_iff]
  exact splitLines_ne_nil _

theorem postLines_isLine (cx : Ctx) (p : Post) :
    (postLines cx p).filter Replayed.isLine = postLines cx p := by
  rw [List.filter_eq_self]
  intro r hr
  unfold postLines at hr
  split at hr
  · obtain ⟨t, _, rfl⟩ := List.mem_map.1 hr
    rfl
  · cases hr

theorem replayPosts_segments (cx : Ctx) (posts : String → Option Post) (ids : List String)
    (hpresent : ∀ id ∈ ids, (posts id).isSome = true)
    (hres : ∀ id ∈ ids, ∀ p, posts id = some p → p.kept →
      (cx.br.GetUser p.UserId).isSome = true) :
    ∀ prev : String, ∃ segs, replayPosts cx posts ids prev = some segs.flatten ∧
      List.Forall₂ (SegmentOf cx posts) ids segs := by
  induction ids with
  | nil => intro prev; exact ⟨[], rfl, List.Forall₂.nil⟩
  | cons id rest ih =>
    intro prev
    obtain ⟨p, hp⟩ := Option.isSome_iff_exists.1 (hpresent id (List.mem_cons_self _ _))
    have ih2 := ih (fun i hi => hpresent i (List.mem_cons_of_mem _ hi))
      (fun i hi => hres i (List.mem_cons_of_mem _ hi))
    by_cases hk : p.kept
    · obtain ⟨info, hu⟩ := Option.isSome_iff_exists.1 (hres id (List.mem_cons_self _ _) p hp hk)
      obtain ⟨segs, hsegs, hall⟩ := ih2 (cx.lib.formatDate p.nanos)
      refine ⟨((if cx.lib.formatDate p.nanos = prev then []
          else [Replayed.marker (cx.lib.formatDate p.nanos)]) ++ postLines cx p) :: segs, ?_,
        List.Forall₂.cons ⟨p, hp, ?_, ?_⟩ hall⟩
      · simp only [replayPosts, hp, replayPost_kept cx p prev info hu hk, hsegs, List.flatten_cons]
      · rw [if_pos hk, List.filter_append, postLines_isLine]
        split <;> rfl
      · refine ⟨fun _ => hk, fun _ => ?_⟩
        intro hnil
        exact postLines_ne_nil cx p info hu (List.append_eq_nil.1 hnil).2
    · obtain ⟨segs, hsegs, hall⟩ := ih2 prev
      refine ⟨[] :: segs, ?_, List.Forall₂.cons ⟨p, hp, ?_, ?_⟩ hall⟩
      · simp only [replayPosts, hp, replayPost_skipped cx p prev hk, hsegs, List.flatten_cons,
          List.nil_append]
      · rw [if_neg hk]; rfl
      · exact ⟨fun h => absurd rfl h, fun h => absurd h hk⟩

/-- C4: a post whose `DeleteAt` is greater than its `CreateAt` is passed over
without a line; and when the replay of a post list runs through (every id of
`Order` has its post, the author of every post that is not skipped is known),
the output splits into one segment per visited post, whose post lines are the
lines of that post if it is neither a join/leave system post nor has
`DeleteAt > CreateAt`, and which is empty otherwise.  A worker that replays the
list into a channel emits exactly that output, entry by entry. -/
theorem deleted_not_replayed (cx : Ctx) (pl : PostList)
    (hpresent : ∀ id ∈ pl.Order, (pl.Posts id).isSome = true)
    (hres : ∀ id ∈ pl.Order, ∀ p, pl.Posts id = some p → p.kept →
      (cx.br.GetUser p.UserId).isSome = true) :
    (∀ p prev, p.DeleteAt > p.CreateAt → replayPost cx p prev = some ([], prev)) ∧
    ∃ segs, replayPosts cx pl.Posts pl.Order.reverse "" = some segs.flatten ∧
      List.Forall₂ (SegmentOf cx pl.Posts) pl.Order.reverse segs ∧
      (∀ s s1 c id, createSpoof cx s c = some (s1, Spoof.channel id) →
        cx.br.GetLastViewedAt c.ID ≠ 0 →
        cx.br.GetPostsSince c.ID (cx.br.GetLastViewedAt c.ID) = some pl →
        ∃ t, workerChannel cx s c = some t ∧
          t.out = s1.out ++
            segs.flatten.map (fun r => Out.spoofMessage id r.args.1 r.args.2)) := by
  refine ⟨fun p prev hd => replayPost_skipped cx p prev (fun hk => hk.2 hd), ?_⟩
  obtain ⟨segs, h1, h2⟩ := replayPosts_segments cx pl.Posts pl.Order.reverse
    (fun id hid => hpresent id (List.mem_reverse.1 hid))
    (fun id hid => hres id (List.mem_reverse.1 hid)) ""
  exact ⟨segs, h1, h2, fun s s1 c id hsp hsince hpl =>
    workerChannel_replay cx s s1 c id pl _ hsp hsince hpl h1⟩

/-! ## Backfill: day markers -/

theorem replayPosts_prevDate (cx : Ctx) (posts : String → Option Post) (ids : List String)
    (hpresent : ∀ id ∈ ids, (posts id).isSome = true)
    (hres : ∀ id ∈ ids, ∀ p, posts id = some p → p.kept →
      (cx.br.GetUser p.UserId).isSome = true) :
    ∀ prev : String, replayPosts cx posts ids prev =
      some (prevDateReplay cx prev ((ids.filterMap posts).filter (fun p => decide p.kept))) := by
  induction ids with
  | nil => intro prev; rfl
  | cons id rest ih =>
    intro prev
    obtain ⟨p, hp⟩ := Option.isSome_iff_exists.1 (hpresent id (List.mem_cons_self _ _))
    have ih2 := ih (fun i hi => hpresent i (List.mem_cons_of_mem _ hi))
      (fun i hi => hres i (List.mem_cons_of_mem _ hi))
    by_cases hk : p.kept
    · obtain ⟨info, hu⟩ := Option.isSome_iff_exists.1 (hres id (List.mem_cons_self _ _) p hp hk)
      simp only [replayPosts, hp, replayPost_kept cx p prev info hu hk, ih2,
        List.filterMap_cons, List.filter_cons, hk, decide_True, if_true, prevDateReplay,
        Post.date]
    · simp only [replayPosts, hp, replayPost_skipped cx p prev hk, ih2,
        List.filterMap_cons, List.filter_cons, hk, decide_False, Bool.false_eq_true, if_false,
        List.nil_append]

theorem prevDate_eq_marked (cx : Ctx)
    (hcal : ∀ a b c : Int, a ≤ b → b ≤ c → cx.lib.formatDate a = cx.lib.formatDate c →
      cx.lib.formatDate b = cx.lib.formatDate a) (R : List Post) :
    ∀ (prev : String) (seen : List String),
      List.Pairwise (fun a b => a ≤ b) (R.map Post.nanos) →
      (∀ p ∈ R, (p.date cx = prev ↔ p.date cx ∈ seen)) →
      (seen = [] ∨ ∃ tl, cx.lib.formatDate tl = prev ∧ ∀ p ∈ R, tl ≤ p.nanos) →
      prevDateReplay cx prev R = markedReplay cx seen R := by
  induction R with
  | nil => intro prev seen _ _ _; rfl
  | cons p rest ih =>
    intro prev seen hsorted hinv hlast
    rw [List.map_cons, List.pairwise_cons] at hsorted
    have hle : ∀ q ∈ rest, p.nanos ≤ q.nanos :=
      fun q hq => hsorted.1 q.nanos (List.mem_map_of_mem _ hq)
    have hrest : prevDateReplay cx (p.date cx) rest = markedReplay cx (p.date cx :: seen) rest := by
      refine ih (p.date cx) (p.date cx :: seen) hsorted.2 ?_ (Or.inr ⟨p.nanos, rfl, hle⟩)
      intro q hq
      refine ⟨fun h => by rw [h]; exact List.mem_cons_self _ _, fun h => ?_⟩
      rcases List.mem_cons.1 h with h | h
      · exact h
      · have hq1 : q.date cx = prev := (hinv q (List.mem_cons_of_mem _ hq)).2 h
        rcases hlast with hnil | ⟨tl, htl, hall⟩
        · rw [hnil] at h; cases h
        · have h1 : cx.lib.formatDate p.nanos = cx.lib.formatDate tl :=
            hcal tl p.nanos q.nanos (hall p (List.mem_cons_self _ _)) (hle q hq)
              (by rw [htl]; exact hq1.symm)
          show q.date cx = cx.lib.formatDate p.nanos
          rw [h1, htl]; exact hq1
    simp only [prevDateReplay, markedReplay, hrest]
    by_cases hd : p.date cx = prev
    · rw [if_pos hd, if_pos ((hinv p (List.mem_cons_self _ _)).1 hd)]
    · rw [if_neg hd, if_neg (fun h => hd ((hinv p (List.mem_cons_self _ _)).2 h))]

theorem toInt64_of_range (x : Int) (h1 : -(2 ^ 63) ≤ x) (h2 : x < 2 ^ 63) : toInt64 x = x := by
  unfold toInt64
  norm_num at h1 h2 ⊢
  omega

theorem postLines_markers (cx : Ctx) (p : Post) :
    (postLines cx p).filterMap Replayed.markerDate = [] := by
  rw [List.filterMap_eq_nil_iff]
  intro r hr
  unfold postLines at hr
  split at hr
  · obtain ⟨t, _, rfl⟩ := List.mem_map.1 hr
    rfl
  · cases hr

theorem markedReplay_markers (cx : Ctx) (seen : List String) (p : Post) (rest : List Post) :
    (markedReplay cx seen (p :: rest)).filterMap Replayed.markerDate =
      (if p.date cx ∈ seen then [] else [p.date cx]) ++
        (markedReplay cx (p.date cx :: seen) rest).filterMap Replayed.markerDate := by
  simp only [markedReplay, List.filterMap_append, postLines_markers, List.append_nil]
  split <;> rfl

theorem markedReplay_markers_spec (cx : Ctx) (R : List Post) :
    ∀ seen : List String,
      (∀ d ∈ (markedReplay cx seen R).filterMap Replayed.markerDate,
        d ∉ seen ∧ d ∈ R.map (Post.date cx)) ∧
      ((markedReplay cx seen R).filterMap Replayed.markerDate).Nodup ∧
      ((markedReplay cx seen R).filterMap Replayed.markerDate).Sublist (R.map (Post.date cx)) ∧
      (∀ d ∈ R.map (Post.date cx), d ∉ seen →
        d ∈ (markedReplay cx seen R).filterMap Replayed.markerDate) := by
  induction R with
  | nil =>
    intro seen
    simp [markedReplay]
  | cons p rest ih =>
    intro seen
    obtain ⟨ha, hb, hc, hd⟩ := ih (p.date cx :: seen)
    rw [markedReplay_markers, List.map_cons]
    by_cases hs : p.date cx ∈ seen
    · rw [if_pos hs, List.nil_append]
      refine ⟨fun d hdm => ?_, hb, hc.cons _, fun d hdm hns => ?_⟩
      · have := ha d hdm
        exact ⟨fun h => this.1 (List.mem_cons_of_mem _ h), List.mem_cons_of_mem _ this.2⟩
      · rcases List.mem_cons.1 hdm with h | h
        · rw [h] at hns; exact absurd hs hns
        · refine hd d h (fun hc2 => ?_)
          rcases List.mem_cons.1 hc2 with h2 | h2
          · rw [h2] at hns; exact hns hs
          · exact hns h2
    · rw [if_neg hs, List.singleton_append]
      refine ⟨fun d hdm => ?_, ?_, hc.cons₂ _, fun d hdm hns => ?_⟩
      · rcases List.mem_cons.1 hdm with h | h
        · rw [h]; exact ⟨hs, List.mem_cons_self _ _⟩
        · have := ha d h
          exact ⟨fun h2 => this.1 (List.mem_cons_of_mem _ h2), List.mem_cons_of_mem _ this.2⟩
      · rw [List.nodup_cons]
        exact ⟨fun h => (ha _ h).1 (List.mem_cons_self _ _), hb⟩
      · by_cases he : d = p.date cx
        · rw [he]; exact List.mem_cons_self _ _
        · rcases List.mem_cons.1 hdm with h | h
          · exact absurd h he
          · refine List.mem_cons_of_mem _ (hd d h (fun hc2 => ?_))
            rcases List.mem_cons.1 hc2 with h2 | h2
            · exact he h2
            · exact hns h2

/-- C3, amended: when the replay of a post list runs through (every id of `Order` has
its post, the author of every replayed post is known), its replayed posts are
in non-decreasing `CreateAt` order with creation times that fit `int64`
nanoseconds, and the date layout maps intervals of time to one date and never
to the empty string, the output is the lines of the replayed posts with a day
marker immediately before the first line of each post that opens a new date.
The marker dates are pairwise distinct, they are exactly the dates of the
replayed posts, and they come in the order of the posts.  A worker that
replays the list into a channel emits exactly that output, entry by entry. -/
theorem day_markers (cx : Ctx) (pl : PostList)
    (hpresent : ∀ id ∈ pl.Order, (pl.Posts id).isSome = true)
    (hres : ∀ id ∈ pl.Order, ∀ p, pl.Posts id = some p → p.kept →
      (cx.br.GetUser p.UserId).isSome = true)
    (hcal : ∀ a b c : Int, a ≤ b → b ≤ c → cx.lib.formatDate a = cx.lib.formatDate c →
      cx.lib.formatDate b = cx.lib.formatDate a)
    (hne : ∀ t : Int, cx.lib.formatDate t ≠ "")
    (hrange : ∀ p ∈ replayedPosts pl,
      -(2 ^ 63) ≤ p.CreateAt * 1000000 ∧ p.CreateAt * 1000000 < 2 ^ 63)
    (hchron : List.Pairwise (fun a b => a ≤ b) ((replayedPosts pl).map Post.CreateAt)) :
    ∃ out, replayPosts cx pl.Posts pl.Order.reverse "" = some out ∧
      out = markedReplay cx [] (replayedPosts pl) ∧
      (out.filterMap Replayed.markerDate).Nodup ∧
      (∀ d, d ∈ out.filterMap Replayed.markerDate ↔
        d ∈ (replayedPosts pl).map (Post.date cx)) ∧
      (out.filterMap Replayed.markerDate).Sublist ((replayedPosts pl).map (Post.date cx)) ∧
      (∀ s s1 c id, createSpoof cx s c = some (s1, Spoof.channel id) →
        cx.br.GetLastViewedAt c.ID ≠ 0 →
        cx.br.GetPostsSince c.ID (cx.br.GetLastViewedAt c.ID) = some pl →
        ∃ t, workerChannel cx s c = some t ∧
          t.out = s1.out ++ out.map (fun r => Out.spoofMessage id r.args.1 r.args.2)) := by
  have hA := replayPosts_prevDate cx pl.Posts pl.Order.reverse
    (fun id hid => hpresent id (List.mem_reverse.1 hid))
    (fun id hid => hres id (List.mem_reverse.1 hid)) ""
  have hsorted : List.Pairwise (fun a b => a ≤ b) ((replayedPosts pl).map Post.nanos) := by
    rw [List.pairwise_map] at hchron ⊢
    refine List.Pairwise.imp_of_mem ?_ hchron
    intro a b ha hb hab
    unfold Post.nanos
    rw [toInt64_of_range _ (hrange a ha).1 (hrange a ha).2,
      toInt64_of_range _ (hrange b hb).1 (hrange b hb).2]
    omega
  have hB := prevDate_eq_marked cx hcal (replayedPosts pl) "" [] hsorted
    (fun p _ => ⟨fun h => absurd h (hne _), fun h => by cases h⟩) (Or.inl rfl)
  obtain ⟨ha, hb, hc, hd⟩ := markedReplay_markers_spec cx (replayedPosts pl) []
  refine ⟨_, hA, hB, ?_, ?_, ?_, fun s s1 c id hsp hsince hpl =>
    workerChannel_replay cx s s1 c id pl _ hsp hsince hpl hA⟩
  · rw [show (pl.Order.reverse.filterMap pl.Posts).filter (fun p => decide p.kept) =
      replayedPosts pl from rfl, hB]
    exact hb
  · rw [show (pl.Order.reverse.filterMap pl.Posts).filter (fun p => decide p.kept) =
      replayedPosts pl from rfl, hB]
    exact fun d => ⟨fun h => (ha d h).2, fun h => hd d h (List.not_mem_nil _)⟩
  · rw [show (pl.Order.reverse.filterMap pl.Posts).filter (fun p => decide p.kept) =
      replayedPosts pl from rfl, hB]
    exact hc

theorem exLib_calendar (a b c : Int) (hab : a ≤ b) (hbc : b ≤ c)
    (h : exLib.formatDate a = exLib.formatDate c) : exLib.formatDate b = exLib.formatDate a := by
  simp only [exLib] at h ⊢
  by_cases ha : a < 86400000000000 <;> by_cases hb : b < 86400000000000 <;>
    by_cases hc : c < 86400000000000 <;> simp [ha, hb, hc] at h ⊢ <;> omega

theorem exLib_date_ne (t : Int) : exLib.formatDate t ≠ "" := by
  simp only [exLib]
  split <;> decide

/-- C3, as stated, fails: the posts of `exPostsFar` are replayed in
non-decreasing `CreateAt` order, the replay runs through, and the date layout
maps intervals of time to one non-empty date; yet `CreateAt * 1000000` wraps
around for the last post, whose date comes out as the first day again, and
the marker of that day is emitted twice. -/
theorem day_markers_overflow_counterexample :
    List.Pairwise (fun a b => a ≤ b) ((replayedPosts exPostsFar).map Post.CreateAt) ∧
    (∀ a b c : Int, a ≤ b → b ≤ c →
      exCtxReplay.lib.formatDate a = exCtxReplay.lib.formatDate c →
      exCtxReplay.lib.formatDate b = exCtxReplay.lib.formatDate a) ∧
    (∀ t : Int, exCtxReplay.lib.formatDate t ≠ "") ∧
    replayPosts exCtxReplay exPostsFar.Posts exPostsFar.Order.reverse "" =
      some [Replayed.marker "1970-01-01", Replayed.line "alice" "00:00" "first",
        Replayed.marker "1970-01-02", Replayed.line "alice" "00:00" "second",
        Replayed.marker "1970-01-01", Replayed.line "alice" "00:00" "third"] ∧
    ¬ ([Replayed.marker "1970-01-01", Replayed.line "alice" "00:00" "first",
        Replayed.marker "1970-01-02", Replayed.line "alice" "00:00" "second",
        Replayed.marker "1970-01-01", Replayed.line "alice" "00:00" "third"].filterMap
          Replayed.markerDate).Nodup :=
  ⟨by decide, exLib_calendar, exLib_date_ne, by decide, by decide⟩

/-- C3, amended, on `exPosts`, replayed into the channel `town`: one marker for each of
the two days, each before the first line of its day. -/
theorem day_markers_witness :
    ∃ out t, replayPosts exCtxReplay exPosts.Posts exPosts.Order.reverse "" = some out ∧
      out = [Replayed.marker "1970-01-01", Replayed.line "alice" "00:00" "hello",
        Replayed.line "alice" "00:00" "world", Replayed.marker "1970-01-02",
        Replayed.line "bob" "00:00" "next day"] ∧
      workerChannel exCtxReplay (exSession "me")
        { Name := "town", ID := "town", TeamID := "team" } = some t ∧
      t.out = [Out.batchJoin "town" [],
        Out.spoofMessage "town" "matterircd" "Replaying since 1970-01-01",
        Out.spoofMessage "town" "alice" "[00:00] hello",
        Out.spoofMessage "town" "alice" "[00:00] world",
        Out.spoofMessage "town" "matterircd" "Replaying since 1970-01-02",
        Out.spoofMessage "town" "bob" "[00:00] next day"] := by
  obtain ⟨out, h1, h2, _, _, _, h6⟩ := day_markers exCtxReplay exPosts (by decide)
    (fun _ _ _ _ _ => rfl) exLib_calendar exLib_date_ne (by decide) (by decide)
  obtain ⟨t, ht1, ht2⟩ := h6 (exSession "me") _ { Name := "town", ID := "town", TeamID := "team" }
    "town" rfl (by decide) rfl
  have h3 : out = [Replayed.marker "1970-01-01", Replayed.line "alice" "00:00" "hello",
      Replayed.line "alice" "00:00" "world", Replayed.marker "1970-01-02",
      Replayed.line "bob" "00:00" "next day"] := h2.trans (by decide)
  refine ⟨out, t, h1, h3, ht1, ?_⟩
  rw [ht2, h3]
  decide

/-- C4 on `exPosts`: the deleted post `p2` and the join/leave post `p4` have
empty segments. -/
theorem deleted_not_replayed_witness :
    ∃ segs, replayPosts exCtxReplay exPosts.Posts exPosts.Order.reverse "" = some segs.flatten ∧
      List.Forall₂ (SegmentOf exCtxReplay exPosts.Posts) exPosts.Order.reverse segs :=
  (deleted_not_replayed exCtxReplay exPosts (by decide) (fun _ _ _ _ _ => rfl)).2.imp
    (fun _ h => ⟨h.1, h.2.1⟩)

end Matterircd
